import Mathlib

/-!
Shallow embedding of `src/harsh.rs` (the `harsh` hashids library) and proofs
about it.  Bytes are modelled as `Nat` (values `0 ≤ b < 256`), Rust `String`s
and `&[u8]` byte slices as `List Nat`, `u64`/`usize` arithmetic as `Nat` with
an explicit `% W` (`W = 2 ^ 64`) wherever Rust's wrapping (release-mode)
overflow semantics can matter, and fallible operations as `Option`.  A Rust
panic (index out of bounds, `% 0`, a failed `expect`) and a provable
non-termination of the source loop are both modelled as `none`: the function
does not return a value in either case.

The model pushes one list entry per symbol.  This coincides byte-for-byte
with the Rust `String` buffers whenever every configured symbol is ASCII
(`< 128`); theorems that need that correspondence carry it as a hypothesis.
-/

set_option maxRecDepth 10000

namespace Hashids

/-- Wrap-around modulus of 64-bit machine arithmetic. -/
def W : Nat := 2 ^ 64

/-- ASCII bytes of a string literal (test vectors are all ASCII). -/
def strBytes (s : String) : List Nat := s.data.map Char.toNat

/-- `DEFAULT_ALPHABET` from `harsh.rs`. -/
def DEFAULT_ALPHABET : List Nat :=
  strBytes "abcdefghijklmnopqrstuvwxyzABCDEFGHIJKLMNOPQRSTUVWXYZ1234567890"

/-- `DEFAULT_SEPARATORS` from `harsh.rs`. -/
def DEFAULT_SEPARATORS : List Nat := strBytes "cfhistuCFHISTU"

/-- The resolved configuration: the fields of `struct Harsh`. -/
structure Harsh where
  salt : List Nat
  alphabet : List Nat
  separators : List Nat
  hash_length : Nat
  guards : List Nat
deriving Repr, DecidableEq

/-- `values.swap(i, j)` on a list; out-of-range indices leave the list
unchanged (the embedding only ever calls it in bounds). -/
def listSwap (l : List Nat) (i j : Nat) : List Nat :=
  (l.set i (l.getD j 0)).set j (l.getD i 0)

/-- The loop of `fn shuffle`: the write index runs `values.len()-1, …, 1`
(the first argument is the current index), with accumulators `v` and `p`.
`v` and `p` stay far below `2 ^ 64` (they are bounded by 256·len sums), so
no wrapping is inserted. -/
def shuffleLoop (salt : List Nat) : Nat → Nat → Nat → List Nat → List Nat
  | 0, _, _, values => values
  | i + 1, v, p, values =>
    let v2 := v % salt.length
    let n := salt.getD v2 0
    let p2 := p + n
    let j := (n + v2 + p2) % (i + 1)
    shuffleLoop salt i (v2 + 1) p2 (listSwap values (i + 1) j)

/-- `fn shuffle(values, salt)`: no-op on empty salt, else the salted
Fisher-Yates variant. -/
def shuffle (values salt : List Nat) : List Nat :=
  if salt.isEmpty then values else shuffleLoop salt (values.length - 1) 0 0 values

/-- `fn create_nhash`: `Σ values[i] % (i + 100)` with wrapping `u64` adds. -/
def create_nhash (values : List Nat) : Nat :=
  (values.enum.foldl (fun a p => (a + p.2 % (p.1 + 100)) % W) 0)

/-- The loop body of `fn hash`, with explicit fuel (the Rust loop runs at
most `value + 1` times when it terminates; exhausted fuel models the
non-terminating `alphabet.len() == 1`, `value ≥ 1` case). -/
def hashFuel (alphabet : List Nat) : Nat → Nat → Option (List Nat)
  | 0, _ => none
  | fuel + 1, v =>
    let d := alphabet.getD (v % alphabet.length) 0
    if v / alphabet.length = 0 then some [d]
    else
      match hashFuel alphabet fuel (v / alphabet.length) with
      | none => none
      | some ds => some (ds ++ [d])

/-- `fn hash(value, alphabet)`: positional numeral, most significant digit
first.  An empty alphabet panics in Rust (`value % 0`): `none`. -/
def hash (v : Nat) (alphabet : List Nat) : Option (List Nat) :=
  if alphabet.isEmpty then none else hashFuel alphabet (v + 1) v

/-- `fn unhash(input, alphabet)`: fold over `input.iter().enumerate()`;
each absent byte gives `None`; `u64` multiply/add/pow wrap (`% W`). -/
def unhash (input alphabet : List Nat) : Option Nat :=
  input.enum.foldl
    (fun a p =>
      match alphabet.findIdx? (fun x => x == p.2) with
      | none => none
      | some pos =>
        a.map (fun a2 => (a2 + pos * (alphabet.length ^ (input.length - p.1 - 1) % W) % W) % W))
    (some 0)

/-- The shuffle key both `encode` and `decode` build for each value/segment:
`lottery ++ salt ++ alphabet`, truncated to `alphabet.len()`, then used as
the shuffle salt for the scratch alphabet. -/
def next_alphabet (lottery : Nat) (salt alphabet : List Nat) : List Nat :=
  shuffle alphabet ((lottery :: (salt ++ alphabet)).take alphabet.length)

/-- The per-value loop of `encode` (lines 40-62 of `harsh.rs`), returning
the emitted bytes after the lottery byte plus the final scratch alphabet.
`none` models the two reachable `% 0` panics (first digit byte 0 at index
0; empty separator list). -/
def encode_values (lottery : Nat) (salt seps : List Nat) :
    Nat → List Nat → List Nat → Option (List Nat × List Nat)
  | _, alphabet, [] => some ([], alphabet)
  | idx, alphabet, v :: vs =>
    let alphabet2 := next_alphabet lottery salt alphabet
    match hash v alphabet2 with
    | none => none
    | some last =>
      if vs.isEmpty then some (last, alphabet2)
      else
        let d := last.headD 0 + idx
        if d = 0 then none
        else if seps.isEmpty then none
        else
          let sep := seps.getD (v % d % seps.length) 0
          match encode_values lottery salt seps (idx + 1) alphabet2 vs with
          | none => none
          | some (rest, af) => some (last ++ sep :: rest, af)

/-- The padding loop of `encode` (lines 80-100): wrap the buffer in the
halves of the self-shuffled alphabet and trim symmetrically.  Fuel
`hash_length + 1` provably suffices whenever the alphabet is non-empty
(`pad_loop_total`); exhausted fuel models divergence. -/
def pad_loop (L half : Nat) : Nat → List Nat → List Nat → Option (List Nat)
  | 0, _, buffer => if L ≤ buffer.length then some buffer else none
  | fuel + 1, alphabet, buffer =>
    if L ≤ buffer.length then some buffer
    else
      let alphabet2 := shuffle alphabet alphabet
      let left := alphabet2.take half
      let right := alphabet2.drop half
      let buffer2 := right ++ buffer ++ left
      let buffer3 :=
        if L < buffer2.length then (buffer2.drop ((buffer2.length - L) / 2)).take L
        else buffer2
      pad_loop L half fuel alphabet2 buffer3

/-- The guard-insertion step of `encode` (lines 64-78).  `none` models the
`% 0` panic on empty guards and the `.nth(2).expect` panic. -/
def guard_step (h : Harsh) (nhash : Nat) (buffer : List Nat) : Option (List Nat) :=
  if buffer.length < h.hash_length then
    if h.guards.isEmpty then none
    else
      let g := h.guards.getD ((nhash + buffer.headD 0) % W % h.guards.length) 0
      let buffer2 := g :: buffer
      if buffer2.length < h.hash_length then
        if buffer2.length ≤ 2 then none
        else
          let g2 := h.guards.getD ((nhash + buffer2.getD 2 0) % W % h.guards.length) 0
          some (buffer2 ++ [g2])
      else some buffer2
  else some buffer

/-- `Harsh::encode`.  `none` for the empty input (the Rust `None`) and for
the panicking/diverging configurations (empty alphabet at the lottery
index, and the cases documented on the helpers). -/
def encode (h : Harsh) (values : List Nat) : Option (List Nat) :=
  if values.isEmpty then none
  else if h.alphabet.isEmpty then none
  else
    let nhash := create_nhash values
    let lottery := h.alphabet.getD (nhash % h.alphabet.length) 0
    match encode_values lottery h.salt h.separators 0 h.alphabet values with
    | none => none
    | some (body, alphabet2) =>
      match guard_step h nhash (lottery :: body) with
      | none => none
      | some buffer4 =>
        pad_loop h.hash_length (alphabet2.length / 2) (h.hash_length + 1) alphabet2 buffer4

/-- The per-segment loop of `decode` (lines 127-139). -/
def decode_segments (lottery : Nat) (salt : List Nat) :
    List Nat → List (List Nat) → Option (List Nat)
  | _, [] => some []
  | alphabet, seg :: rest =>
    let alphabet2 := next_alphabet lottery salt alphabet
    match unhash seg alphabet2 with
    | none => none
    | some n =>
      match decode_segments lottery salt alphabet2 rest with
      | none => none
      | some ns => some (n :: ns)

/-- `Harsh::decode`: strip up to the first guard byte and from the last
guard byte, require at least two remaining bytes, split the tail on
separator bytes, and unhash each segment against the evolving alphabet. -/
def decode (h : Harsh) (input : List Nat) : Option (List Nat) :=
  let v1 := match input.findIdx? (fun u => h.guards.contains u) with
    | some i => input.drop (i + 1)
    | none => input
  let v2 := match v1.reverse.findIdx? (fun u => h.guards.contains u) with
    | some k => v1.take (v1.length - 1 - k)
    | none => v1
  if v2.length < 2 then none
  else
    match v2 with
    | [] => none
    | lottery :: rest =>
      decode_segments lottery h.salt h.alphabet
        (rest.splitOnP (fun u => h.separators.contains u))

/-- ASCII hex digit test (`0-9`, `A-F`, `a-f`), as bytes. -/
def is_hex_digit (b : Nat) : Bool :=
  (48 ≤ b && b ≤ 57) || (65 ≤ b && b ≤ 70) || (97 ≤ b && b ≤ 102)

/-- Numeric value of an ASCII hex digit. -/
def hex_val (b : Nat) : Nat :=
  if b ≤ 57 then b - 48 else if b ≤ 70 then b - 55 else b - 87

/-- `u64::from_str_radix(s, 16)` on the byte strings `encode_hex` builds
(`'1'` followed by at most 12 hex digits): `Err` on the empty string, on
any non-hex-digit byte, and on `u64` overflow. -/
def from_str_radix16 (l : List Nat) : Option Nat :=
  if l.isEmpty then none
  else if l.all is_hex_digit then
    let v := l.foldl (fun a b => a * 16 + hex_val b) 0
    if v < W then some v else none
  else none

/-- `hex.as_bytes().chunks(12)`, with the input length as fuel (each step
consumes at least one byte). -/
def chunksAux : Nat → List Nat → List (List Nat)
  | 0, _ => []
  | _, [] => []
  | fuel + 1, l => l.take 12 :: chunksAux fuel (l.drop 12)

/-- Chunks of at most 12 bytes, last chunk possibly shorter. -/
def chunks12 (l : List Nat) : List (List Nat) := chunksAux l.length l

/-- The `map … collect::<Option<Vec<_>>>` over the chunks in `encode_hex`:
each chunk is parsed with a leading `'1'` (byte 49). -/
def parse_hex_chunks : List (List Nat) → Option (List Nat)
  | [] => some []
  | c :: cs =>
    match from_str_radix16 (49 :: c) with
    | none => none
    | some v =>
      match parse_hex_chunks cs with
      | none => none
      | some vs => some (v :: vs)

/-- `Harsh::encode_hex`. -/
def encode_hex (h : Harsh) (hex : List Nat) : Option (List Nat) :=
  match parse_hex_chunks (chunks12 hex) with
  | none => none
  | some values => encode h values

/-- Lowercase ASCII hex digit of a value `< 16`. -/
def hex_digit_char (d : Nat) : Nat := if d < 10 then 48 + d else 87 + d

/-- Digits of `{:x}` for a positive argument (empty for 0), fuelled. -/
def to_hex_aux : Nat → Nat → List Nat
  | 0, _ => []
  | fuel + 1, n =>
    if n = 0 then []
    else to_hex_aux fuel (n / 16) ++ [hex_digit_char (n % 16)]

/-- `write!(buffer, "{:x}", n)`: minimal lowercase hex, `"0"` for zero. -/
def to_hex (n : Nat) : List Nat := if n = 0 then [48] else to_hex_aux (n + 1) n

/-- `Harsh::decode_hex`: decode, render each value in hex, and drop the
leading `'1'` digit of each rendering. -/
def decode_hex (h : Harsh) (input : List Nat) : Option (List Nat) :=
  match decode h input with
  | none => none
  | some vs => some (vs.foldl (fun acc n => acc ++ (to_hex n).drop 1) [])

/-- First-occurrence deduplication (the `HashSet` scan in
`fn unique_alphabet`); `seen` accumulates the bytes already kept. -/
def dedup_first (seen : List Nat) : List Nat → List Nat
  | [] => []
  | x :: xs => if x ∈ seen then dedup_first seen xs else x :: dedup_first (x :: seen) xs

/-- `fn unique_alphabet`: default alphabet when none supplied; otherwise
reject a space byte, dedup keeping first occurrences, and require at least
16 distinct bytes. -/
def unique_alphabet : Option (List Nat) → Option (List Nat)
  | none => some DEFAULT_ALPHABET
  | some l =>
    if 32 ∈ l then none
    else
      let d := dedup_first [] l
      if d.length < 16 then none else some d

/-- `fn alphabet_and_separators`.  The float tests are exact on the sizes
involved: `a / s > 3.5` iff `2a > 7s`, and `(a / 3.5).ceil()` is
`⌈2a / 7⌉ = (2a + 6) / 7`.  `none` models the out-of-range slice panic
(unreachable from `init`, see `alphabet_and_separators_total`-style
reasoning inside the proofs below). -/
def alphabet_and_separators (seps0 : Option (List Nat)) (alphabet salt : List Nat) :
    Option (List Nat × List Nat) :=
  let seps := seps0.getD DEFAULT_SEPARATORS
  let s0 := seps.filter (fun x => x ∈ alphabet)
  let a0 := alphabet.filter (fun x => ¬ x ∈ s0)
  let s1 := shuffle s0 salt
  if s1.isEmpty ∨ 7 * s1.length < 2 * a0.length then
    let c := (2 * a0.length + 6) / 7
    let len := if c = 1 then 2 else c
    if s1.length < len then
      let diff := len - s1.length
      if diff ≤ a0.length then
        some (shuffle (a0.drop diff) salt, s1 ++ a0.take diff)
      else none
    else some (shuffle a0 salt, s1.take len)
  else some (shuffle a0 salt, s1)

/-- `fn guards`: `guard_count = ⌈alphabet.len() / 12⌉`, drawn from the
separators when the alphabet has fewer than 3 symbols, else from the
alphabet.  Returns `(alphabet, separators, guards)` after the drains;
`none` models the slice panic when the source is too short. -/
def guardsFn (alphabet separators : List Nat) : Option (List Nat × List Nat × List Nat) :=
  let gc := (alphabet.length + 11) / 12
  if alphabet.length < 3 then
    if gc ≤ separators.length then
      some (alphabet, separators.drop gc, separators.take gc)
    else none
  else
    if gc ≤ alphabet.length then
      some (alphabet.drop gc, separators, alphabet.take gc)
    else none

/-- `HarshBuilder::init`: resolve the configuration. `none` is `Err`. -/
def init (salt0 alphabet0 seps0 : Option (List Nat)) (hashLength : Nat) : Option Harsh :=
  match unique_alphabet alphabet0 with
  | none => none
  | some a =>
    if a.length < 16 then none
    else
      let salt := salt0.getD []
      match alphabet_and_separators seps0 a salt with
      | none => none
      | some (alphabet, separators) =>
        match guardsFn alphabet separators with
        | none => none
        | some (alphabet2, separators2, guards) =>
          some ⟨salt, alphabet2, separators2, hashLength, guards⟩

/-! ### Permutation facts about `listSwap` and `shuffle` -/

lemma listSwap_length (l : List Nat) (i j : Nat) : (listSwap l i j).length = l.length := by
  simp [listSwap]

lemma getD_cons_set_perm :
    ∀ (xs : List Nat) (k : Nat) (x : Nat), k < xs.length →
      List.Perm (xs.getD k 0 :: xs.set k x) (x :: xs)
  | [], k, x, hk => by simp at hk
  | y :: ys, 0, x, _ => List.Perm.swap x y ys
  | y :: ys, k + 1, x, hk => by
    have hk2 : k < ys.length := by simpa using hk
    show List.Perm (ys.getD k 0 :: y :: ys.set k x) (x :: y :: ys)
    have s1 : List.Perm (ys.getD k 0 :: y :: ys.set k x) (y :: ys.getD k 0 :: ys.set k x) :=
      List.Perm.swap y (ys.getD k 0) (ys.set k x)
    have s2 : List.Perm (y :: ys.getD k 0 :: ys.set k x) (y :: x :: ys) :=
      (getD_cons_set_perm ys k x hk2).cons y
    have s3 : List.Perm (y :: x :: ys) (x :: y :: ys) := List.Perm.swap x y ys
    exact s1.trans (s2.trans s3)

lemma set_set_perm :
    ∀ (l : List Nat) (i j : Nat), j < i → i < l.length →
      List.Perm ((l.set i (l.getD j 0)).set j (l.getD i 0)) l
  | [], i, j, _, hi => by simp at hi
  | x :: xs, i + 1, 0, _, hi => by
    have hi2 : i < xs.length := by simpa using hi
    show List.Perm (xs.getD i 0 :: xs.set i x) (x :: xs)
    exact getD_cons_set_perm xs i x hi2
  | x :: xs, i + 1, j + 1, hj, hi => by
    have hj2 : j < i := by omega
    have hi2 : i < xs.length := by simpa using hi
    show List.Perm (x :: (xs.set i (xs.getD j 0)).set j (xs.getD i 0)) (x :: xs)
    exact (set_set_perm xs i j hj2 hi2).cons x

lemma listSwap_perm (l : List Nat) (i j : Nat) (hj : j < i) (hi : i < l.length) :
    List.Perm (listSwap l i j) l :=
  set_set_perm l i j hj hi

lemma shuffleLoop_perm (salt : List Nat) :
    ∀ (i v p : Nat) (l : List Nat), i < l.length → List.Perm (shuffleLoop salt i v p l) l
  | 0, _, _, l, _ => List.Perm.refl l
  | i + 1, v, p, l, hi => by
    rw [shuffleLoop]
    have hj : (salt.getD (v % salt.length) 0 + v % salt.length +
        (p + salt.getD (v % salt.length) 0)) % (i + 1) < i + 1 := Nat.mod_lt _ (by omega)
    have hswap := listSwap_perm l (i + 1) _ hj hi
    have hlen : i < (listSwap l (i + 1)
        ((salt.getD (v % salt.length) 0 + v % salt.length +
          (p + salt.getD (v % salt.length) 0)) % (i + 1))).length := by
      rw [listSwap_length]; omega
    exact (shuffleLoop_perm salt i _ _ _ hlen).trans hswap

lemma shuffle_perm (l s : List Nat) : List.Perm (shuffle l s) l := by
  rw [shuffle]
  split
  · exact List.Perm.refl l
  · cases l with
    | nil => exact List.Perm.refl []
    | cons a t =>
      exact shuffleLoop_perm s ((a :: t).length - 1) 0 0 (a :: t) (by simp)

lemma shuffle_length (l s : List Nat) : (shuffle l s).length = l.length :=
  (shuffle_perm l s).length_eq

lemma shuffle_mem (l s : List Nat) (x : Nat) : x ∈ shuffle l s ↔ x ∈ l :=
  (shuffle_perm l s).mem_iff

lemma shuffle_nodup (l s : List Nat) (h : l.Nodup) : (shuffle l s).Nodup :=
  (shuffle_perm l s).nodup_iff.mpr h

lemma next_alphabet_perm (lottery : Nat) (salt alphabet : List Nat) :
    List.Perm (next_alphabet lottery salt alphabet) alphabet :=
  shuffle_perm _ _

lemma next_alphabet_length (lottery : Nat) (salt alphabet : List Nat) :
    (next_alphabet lottery salt alphabet).length = alphabet.length :=
  (next_alphabet_perm lottery salt alphabet).length_eq

lemma next_alphabet_mem (lottery : Nat) (salt alphabet : List Nat) (x : Nat) :
    x ∈ next_alphabet lottery salt alphabet ↔ x ∈ alphabet :=
  (next_alphabet_perm lottery salt alphabet).mem_iff

lemma next_alphabet_nodup (lottery : Nat) (salt alphabet : List Nat) (h : alphabet.Nodup) :
    (next_alphabet lottery salt alphabet).Nodup :=
  (next_alphabet_perm lottery salt alphabet).nodup_iff.mpr h

/-! ### The numeral transform: `unhash` inverts `hash` -/

lemma findIdx?_getD_of_nodup_from :
    ∀ (l : List Nat) (i s : Nat), i < l.length → l.Nodup →
      List.findIdx? (fun x => x == l.getD i 0) l s = some (s + i)
  | [], i, s, hi, _ => by simp at hi
  | a :: t, 0, s, _, _ => by simp [List.findIdx?_cons]
  | a :: t, i + 1, s, hi, hnd => by
    have hi2 : i < t.length := by simpa using hi
    have hmem : t.getD i 0 ∈ t := by
      rw [List.getD_eq_getElem t 0 hi2]; exact List.getElem_mem hi2
    have hne : (a == (a :: t).getD (i + 1) 0) = false := by
      have hnot : a ∉ t := (List.nodup_cons.mp hnd).1
      show (a == t.getD i 0) = false
      simp only [beq_eq_false_iff_ne, ne_eq]
      intro heq; exact hnot (heq ▸ hmem)
    rw [List.findIdx?_cons, hne]
    simp only [if_false, Bool.false_eq_true]
    have := findIdx?_getD_of_nodup_from t i (s + 1) hi2 (List.nodup_cons.mp hnd).2
    rw [show ((a :: t).getD (i + 1) 0) = t.getD i 0 from rfl, this]
    congr 1
    omega

lemma findIdx?_getD_of_nodup (l : List Nat) (i : Nat) (hi : i < l.length) (hnd : l.Nodup) :
    l.findIdx? (fun x => x == l.getD i 0) = some i := by
  simpa using findIdx?_getD_of_nodup_from l i 0 hi hnd

/-- Recursive restatement of the fold inside `unhash`: the exponent of the
digit at the head is the length of the tail. -/
def unhashGo (alphabet : List Nat) : Option Nat → List Nat → Option Nat
  | acc, [] => acc
  | acc, d :: ds =>
    unhashGo alphabet
      (match alphabet.findIdx? (fun x => x == d) with
       | none => none
       | some pos =>
         acc.map (fun a2 => (a2 + pos * (alphabet.length ^ ds.length % W) % W) % W)) ds

lemma unhash_foldl_go (alphabet : List Nat) (n : Nat) :
    ∀ (rest : List Nat) (i : Nat), i + rest.length = n → ∀ (acc : Option Nat),
      (rest.enumFrom i).foldl
        (fun a p => match alphabet.findIdx? (fun x => x == p.2) with
          | none => none
          | some pos =>
            a.map (fun a2 => (a2 + pos * (alphabet.length ^ (n - p.1 - 1) % W) % W) % W))
        acc = unhashGo alphabet acc rest
  | [], i, _, acc => rfl
  | d :: ds, i, hn, acc => by
    have hlen : i + 1 + ds.length = n := by simp at hn; omega
    have hexp : n - i - 1 = ds.length := by omega
    show List.foldl _ _ ((i, d) :: ds.enumFrom (i + 1)) = _
    rw [List.foldl_cons]
    rw [unhash_foldl_go alphabet n ds (i + 1) hlen]
    simp only [hexp]
    rfl

lemma unhash_eq_go (input alphabet : List Nat) :
    unhash input alphabet = unhashGo alphabet (some 0) input := by
  have := unhash_foldl_go alphabet input.length input 0 (by simp) (some 0)
  simpa [unhash, List.enum_eq_enumFrom] using this

/-- Pure (non-wrapping) positional value of a digit string over an alphabet. -/
def specVal (alphabet : List Nat) : List Nat → Option Nat
  | [] => some 0
  | d :: ds =>
    match alphabet.findIdx? (fun x => x == d) with
    | none => none
    | some pos => (specVal alphabet ds).map (fun r => pos * alphabet.length ^ ds.length + r)

lemma W_pos : 0 < W := by simp [W]

lemma unhashGo_specVal (alphabet : List Nat) :
    ∀ (ds : List Nat) (m : Nat), specVal alphabet ds = some m →
      ∀ (a : Nat), a < W → unhashGo alphabet (some a) ds = some ((a + m) % W)
  | [], m, hm, a, ha => by
    simp only [specVal] at hm
    cases hm
    simp [unhashGo, Nat.mod_eq_of_lt ha]
  | d :: ds, m, hm, a, ha => by
    simp only [specVal] at hm
    cases hfind : alphabet.findIdx? (fun x => x == d) with
    | none => rw [hfind] at hm; exact absurd hm (by simp)
    | some pos =>
      rw [hfind] at hm
      cases hspec : specVal alphabet ds with
      | none => rw [hspec] at hm; exact absurd hm (by simp)
      | some r =>
        rw [hspec] at hm
        simp only [Option.map_some'] at hm
        replace hm : pos * alphabet.length ^ ds.length + r = m := by
          injection hm
        rw [unhashGo, hfind]
        simp only [Option.map_some']
        set b := alphabet.length
        set a2 := (a + pos * (b ^ ds.length % W) % W) % W with ha2
        have ha2lt : a2 < W := Nat.mod_lt _ W_pos
        rw [unhashGo_specVal alphabet ds r hspec a2 ha2lt]
        congr 1
        have h1 : a2 ≡ a + pos * b ^ ds.length [MOD W] := by
          calc a2 ≡ a + pos * (b ^ ds.length % W) % W [MOD W] := Nat.mod_modEq _ W
            _ ≡ a + pos * (b ^ ds.length % W) [MOD W] :=
              Nat.ModEq.add_left a (Nat.mod_modEq _ W)
            _ ≡ a + pos * b ^ ds.length [MOD W] :=
              Nat.ModEq.add_left a (Nat.ModEq.mul_left pos (Nat.mod_modEq _ W))
        have h2 : a2 + r ≡ a + m [MOD W] := by
          calc a2 + r ≡ a + pos * b ^ ds.length + r [MOD W] := Nat.ModEq.add_right r h1
            _ = a + m := by omega
        exact h2

lemma specVal_append (alphabet : List Nat) :
    ∀ (ds : List Nat) (m : Nat) (d : Nat) (pos : Nat),
      specVal alphabet ds = some m →
      alphabet.findIdx? (fun x => x == d) = some pos →
      specVal alphabet (ds ++ [d]) = some (alphabet.length * m + pos)
  | [], m, d, pos, hm, hd => by
    simp only [specVal] at hm
    cases hm
    simp [specVal, hd]
  | x :: ds, m, d, pos, hm, hd => by
    rw [List.cons_append]
    simp only [specVal] at hm ⊢
    cases hfind : alphabet.findIdx? (fun x2 => x2 == x) with
    | none => rw [hfind] at hm; exact absurd hm (by simp)
    | some px =>
      rw [hfind] at hm
      cases hspec : specVal alphabet ds with
      | none => rw [hspec] at hm; exact absurd hm (by simp)
      | some r =>
        rw [hspec] at hm
        simp only [Option.map_some'] at hm
        replace hm : px * alphabet.length ^ ds.length + r = m := by injection hm
        rw [specVal_append alphabet ds r d pos hspec hd]
        simp only [Option.map_some', List.length_append, List.length_singleton]
        congr 1
        rw [← hm]
        ring

lemma hashFuel_specVal (alphabet : List Nat) (hne : alphabet ≠ [])
    (hnd : alphabet.Nodup) :
    ∀ (f v : Nat) (ds : List Nat), hashFuel alphabet f v = some ds →
      specVal alphabet ds = some v
  | 0, v, ds, h => by simp [hashFuel] at h
  | f + 1, v, ds, h => by
    have hb : 0 < alphabet.length := List.length_pos.mpr hne
    have hmod : v % alphabet.length < alphabet.length := Nat.mod_lt v hb
    have hfind : alphabet.findIdx?
        (fun x => x == alphabet.getD (v % alphabet.length) 0) = some (v % alphabet.length) :=
      findIdx?_getD_of_nodup alphabet _ hmod hnd
    rw [hashFuel] at h
    by_cases hz : v / alphabet.length = 0
    · rw [if_pos hz] at h
      cases h
      simp only [specVal, hfind, List.length_nil, pow_zero, Option.map_some']
      congr 1
      have hdm := Nat.div_add_mod v alphabet.length
      rw [hz, Nat.mul_zero, Nat.zero_add] at hdm
      omega
    · rw [if_neg hz] at h
      cases hrec : hashFuel alphabet f (v / alphabet.length) with
      | none => rw [hrec] at h; exact absurd h (by simp)
      | some ds2 =>
        rw [hrec] at h
        simp only [Option.some_inj] at h
        subst h
        have hds2 := hashFuel_specVal alphabet hne hnd f (v / alphabet.length) ds2 hrec
        rw [specVal_append alphabet ds2 (v / alphabet.length) _ (v % alphabet.length) hds2 hfind]
        congr 1
        have hdm := Nat.div_add_mod v alphabet.length
        omega

lemma hashFuel_mem (alphabet : List Nat) (hne : alphabet ≠ []) :
    ∀ (f v : Nat) (ds : List Nat), hashFuel alphabet f v = some ds →
      ∀ d ∈ ds, d ∈ alphabet
  | 0, v, ds, h => by simp [hashFuel] at h
  | f + 1, v, ds, h => by
    have hb : 0 < alphabet.length := List.length_pos.mpr hne
    have hmod : v % alphabet.length < alphabet.length := Nat.mod_lt v hb
    have hmem : alphabet.getD (v % alphabet.length) 0 ∈ alphabet := by
      rw [List.getD_eq_getElem alphabet 0 hmod]; exact List.getElem_mem hmod
    rw [hashFuel] at h
    by_cases hz : v / alphabet.length = 0
    · rw [if_pos hz] at h
      cases h
      intro d hd
      simp only [List.mem_singleton] at hd
      exact hd ▸ hmem
    · rw [if_neg hz] at h
      cases hrec : hashFuel alphabet f (v / alphabet.length) with
      | none => rw [hrec] at h; exact absurd h (by simp)
      | some ds2 =>
        rw [hrec] at h
        simp only [Option.some_inj] at h
        subst h
        intro d hd
        rcases List.mem_append.mp hd with h1 | h2
        · exact hashFuel_mem alphabet hne f (v / alphabet.length) ds2 hrec d h1
        · simp only [List.mem_singleton] at h2
          exact h2 ▸ hmem

lemma hashFuel_ne_nil (alphabet : List Nat) :
    ∀ (f v : Nat) (ds : List Nat), hashFuel alphabet f v = some ds → ds ≠ []
  | 0, v, ds, h => by simp [hashFuel] at h
  | f + 1, v, ds, h => by
    rw [hashFuel] at h
    by_cases hz : v / alphabet.length = 0
    · rw [if_pos hz] at h; cases h; simp
    · rw [if_neg hz] at h
      cases hrec : hashFuel alphabet f (v / alphabet.length) with
      | none => rw [hrec] at h; exact absurd h (by simp)
      | some ds2 => rw [hrec] at h; simp only [Option.some_inj] at h; subst h; simp

lemma hash_ne_nil (v : Nat) (alphabet ds : List Nat) (h : hash v alphabet = some ds) :
    ds ≠ [] := by
  rw [hash] at h
  split at h
  · exact absurd h (by simp)
  · exact hashFuel_ne_nil alphabet (v + 1) v ds h

lemma hash_mem (v : Nat) (alphabet ds : List Nat) (h : hash v alphabet = some ds) :
    ∀ d ∈ ds, d ∈ alphabet := by
  rw [hash] at h
  split at h
  · exact absurd h (by simp)
  · rename_i hne
    exact hashFuel_mem alphabet (by simpa [List.isEmpty_iff] using hne) (v + 1) v ds h

/-- Core single-value inversion: `unhash` recovers the value `hash` encoded,
over any duplicate-free alphabet, for values within `u64` range. -/
lemma unhash_hash (alphabet : List Nat) (hnd : alphabet.Nodup) (v : Nat) (hv : v < W)
    (ds : List Nat) (hh : hash v alphabet = some ds) :
    unhash ds alphabet = some v := by
  rw [hash] at hh
  split at hh
  · exact absurd hh (by simp)
  · rename_i hne
    have hne2 : alphabet ≠ [] := by simpa [List.isEmpty_iff] using hne
    have hspec := hashFuel_specVal alphabet hne2 hnd (v + 1) v ds hh
    rw [unhash_eq_go]
    rw [unhashGo_specVal alphabet ds v hspec 0 W_pos]
    simp [Nat.mod_eq_of_lt hv]

/-! ### Byte-set membership as `Bool`, and guard/separator scan lemmas -/

lemma contains_true_iff (l : List Nat) (x : Nat) : l.contains x = true ↔ x ∈ l := by simp

lemma contains_false_iff (l : List Nat) (x : Nat) : l.contains x = false ↔ x ∉ l := by
  rw [← contains_true_iff]
  cases l.contains x <;> simp

lemma findIdx?_none_of_clean (p : Nat → Bool) (l : List Nat)
    (h : ∀ a ∈ l, p a = false) : l.findIdx? p = none := by
  rw [List.findIdx?_eq_none_iff]
  intro x hx
  simpa using h x hx

lemma findIdx?_clean_append_from (p : Nat → Bool) :
    ∀ (x : List Nat) (g : Nat) (rest : List Nat) (s : Nat),
      (∀ a ∈ x, p a = false) → p g = true →
      List.findIdx? p (x ++ g :: rest) s = some (s + x.length)
  | [], g, rest, s, _, hg => by simp [List.findIdx?_cons, hg]
  | a :: x, g, rest, s, h, hg => by
    rw [List.cons_append, List.findIdx?_cons]
    rw [h a (List.mem_cons_self a x)]
    simp only [Bool.false_eq_true, if_false]
    rw [findIdx?_clean_append_from p x g rest (s + 1)
      (fun b hb => h b (List.mem_cons_of_mem a hb)) hg]
    congr 1
    simp only [List.length_cons]
    omega

lemma findIdx?_clean_append (p : Nat → Bool) (x : List Nat) (g : Nat) (rest : List Nat)
    (h : ∀ a ∈ x, p a = false) (hg : p g = true) :
    List.findIdx? p (x ++ g :: rest) = some x.length := by
  simpa using findIdx?_clean_append_from p x g rest 0 h hg

/-! ### `encode_values` against `decode_segments` -/

lemma decode_encode_values (lottery : Nat) (salt seps : List Nat) :
    ∀ (vs : List Nat) (idx : Nat) (alphabet body af : List Nat),
      alphabet.Nodup → (∀ x ∈ alphabet, x ∉ seps) →
      (∀ v ∈ vs, v < W) → vs ≠ [] →
      encode_values lottery salt seps idx alphabet vs = some (body, af) →
      decode_segments lottery salt alphabet (body.splitOnP (fun u => seps.contains u)) = some vs
        ∧ body ≠ [] ∧ (∀ x ∈ body, x ∈ alphabet ∨ x ∈ seps)
  | [], _, _, _, _, _, _, _, hne, _ => absurd rfl hne
  | v :: vs, idx, alphabet, body, af, hnd, hdisj, hv, _, henc => by
    simp only [encode_values] at henc
    cases hh : hash v (next_alphabet lottery salt alphabet) with
    | none => rw [hh] at henc; exact absurd henc (by simp)
    | some last =>
      simp only [hh] at henc
      have hnd2 : (next_alphabet lottery salt alphabet).Nodup :=
        next_alphabet_nodup _ _ _ hnd
      have hmem2 : ∀ x ∈ last, x ∈ alphabet := fun x hx =>
        (next_alphabet_mem lottery salt alphabet x).mp
          (hash_mem v (next_alphabet lottery salt alphabet) last hh x hx)
      have hlastne := hash_ne_nil v (next_alphabet lottery salt alphabet) last hh
      have hunh : unhash last (next_alphabet lottery salt alphabet) = some v :=
        unhash_hash (next_alphabet lottery salt alphabet) hnd2 v
          (hv v (List.mem_cons_self v vs)) last hh
      have hclean : ∀ x ∈ last, (fun u => seps.contains u) x = false := fun x hx =>
        (contains_false_iff seps x).mpr (hdisj x (hmem2 x hx))
      by_cases hvs : vs.isEmpty
      · rw [if_pos hvs] at henc
        have hveq : vs = [] := List.isEmpty_iff.mp hvs
        subst hveq
        injection henc with h1
        injection h1 with h2 h3
        subst h2
        have hsingle : List.splitOnP (fun u => seps.contains u) last = [last] :=
          List.splitOnP_eq_single _ last (fun x hx => by simpa using hclean x hx)
        rw [hsingle]
        refine ⟨?_, hlastne, fun x hx => Or.inl (hmem2 x hx)⟩
        simp only [decode_segments, hunh]
      · rw [if_neg hvs] at henc
        have hvsne : vs ≠ [] := by
          intro hcon; rw [hcon] at hvs; simp at hvs
        by_cases hd : last.headD 0 + idx = 0
        · rw [if_pos hd] at henc; exact absurd henc (by simp)
        · rw [if_neg hd] at henc
          by_cases hse : seps.isEmpty
          · rw [if_pos hse] at henc; exact absurd henc (by simp)
          · rw [if_neg hse] at henc
            have hsepsne : seps ≠ [] := by
              intro hcon; rw [hcon] at hse; simp at hse
            cases hrec : encode_values lottery salt seps (idx + 1)
                (next_alphabet lottery salt alphabet) vs with
            | none => rw [hrec] at henc; exact absurd henc (by simp)
            | some p =>
              obtain ⟨rest, af2⟩ := p
              simp only [hrec] at henc
              injection henc with h1
              injection h1 with h2 h3
              subst h2
              have hseplen : 0 < seps.length := List.length_pos.mpr hsepsne
              have hsepmem : seps.getD (v % (last.headD 0 + idx) % seps.length) 0 ∈ seps := by
                rw [List.getD_eq_getElem seps 0 (Nat.mod_lt _ hseplen)]
                exact List.getElem_mem _
              have hdisj2 : ∀ x ∈ next_alphabet lottery salt alphabet, x ∉ seps := fun x hx =>
                hdisj x ((next_alphabet_mem lottery salt alphabet x).mp hx)
              have hv2 : ∀ w ∈ vs, w < W := fun w hw => hv w (List.mem_cons_of_mem v hw)
              obtain ⟨ih1, ih2, ih3⟩ := decode_encode_values lottery salt seps vs (idx + 1)
                (next_alphabet lottery salt alphabet) rest af2 hnd2 hdisj2 hv2 hvsne hrec
              have hfirst := List.splitOnP_first (fun u => seps.contains u) last
                (fun x hx => by simpa using hclean x hx)
                (seps.getD (v % (last.headD 0 + idx) % seps.length) 0)
                (by simpa using (contains_true_iff seps _).mpr hsepmem) rest
              rw [hfirst]
              constructor
              · simp only [decode_segments, hunh, ih1]
              · refine ⟨by simp, fun x hx => ?_⟩
                rcases List.mem_append.mp hx with h1 | h2
                · exact Or.inl (hmem2 x h1)
                · rcases List.mem_cons.mp h2 with h3 | h4
                  · exact Or.inr (h3 ▸ hsepmem)
                  · rcases ih3 x h4 with h5 | h6
                    · exact Or.inl ((next_alphabet_mem lottery salt alphabet x).mp h5)
                    · exact Or.inr h6

/-! ### The guard-insertion and padding stages of `encode` -/

lemma guard_step_cases (h : Harsh) (nhash : Nat) (buffer buffer4 : List Nat)
    (hg : guard_step h nhash buffer = some buffer4) :
    (buffer4 = buffer ∧ h.hash_length ≤ buffer.length) ∨
    (∃ g1, g1 ∈ h.guards ∧ buffer4 = g1 :: buffer ∧ h.hash_length ≤ buffer4.length) ∨
    (∃ g1 g2, g1 ∈ h.guards ∧ g2 ∈ h.guards ∧ buffer4 = g1 :: buffer ++ [g2]) := by
  simp only [guard_step] at hg
  by_cases h1 : buffer.length < h.hash_length
  · rw [if_pos h1] at hg
    by_cases h2 : h.guards.isEmpty
    · rw [if_pos h2] at hg; exact absurd hg (by simp)
    · rw [if_neg h2] at hg
      have hgne : h.guards ≠ [] := by
        intro hcon; rw [hcon] at h2; simp at h2
      have hglen : 0 < h.guards.length := List.length_pos.mpr hgne
      have hmem1 : h.guards.getD ((nhash + buffer.headD 0) % W % h.guards.length) 0
          ∈ h.guards := by
        rw [List.getD_eq_getElem h.guards 0 (Nat.mod_lt _ hglen)]
        exact List.getElem_mem _
      by_cases h3 : (h.guards.getD ((nhash + buffer.headD 0) % W % h.guards.length) 0
          :: buffer).length < h.hash_length
      · rw [if_pos h3] at hg
        by_cases h4 : (h.guards.getD ((nhash + buffer.headD 0) % W % h.guards.length) 0
            :: buffer).length ≤ 2
        · rw [if_pos h4] at hg; exact absurd hg (by simp)
        · rw [if_neg h4] at hg
          injection hg with h5
          refine Or.inr (Or.inr
            ⟨h.guards.getD ((nhash + buffer.headD 0) % W % h.guards.length) 0,
             h.guards.getD ((nhash +
               (h.guards.getD ((nhash + buffer.headD 0) % W % h.guards.length) 0
                 :: buffer).getD 2 0) % W % h.guards.length) 0,
             hmem1, ?_, h5.symm⟩)
          rw [List.getD_eq_getElem h.guards 0 (Nat.mod_lt _ hglen)]
          exact List.getElem_mem _
      · rw [if_neg h3] at hg
        refine Or.inr (Or.inl ⟨_, hmem1, ?_, ?_⟩)
        · injection hg with h5; rw [← h5]
        · injection hg with h5; rw [← h5]; omega
  · rw [if_neg h1] at hg
    injection hg with h5
    exact Or.inl ⟨h5.symm, by omega⟩

lemma pad_loop_of_le (L half fuel : Nat) (alphabet buffer : List Nat)
    (h : L ≤ buffer.length) : pad_loop L half fuel alphabet buffer = some buffer := by
  cases fuel with
  | zero => rw [pad_loop, if_pos h]
  | succ f => rw [pad_loop, if_pos h]

lemma pad_loop_length (L half : Nat) :
    ∀ (fuel : Nat) (alphabet buffer r : List Nat),
      pad_loop L half fuel alphabet buffer = some r → L ≤ r.length
  | 0, alphabet, buffer, r, hp => by
    rw [pad_loop] at hp
    split at hp
    · injection hp with h1; subst h1; assumption
    · exact absurd hp (by simp)
  | fuel + 1, alphabet, buffer, r, hp => by
    rw [pad_loop] at hp
    split at hp
    · injection hp with h1; subst h1; assumption
    · exact pad_loop_length L half fuel _ _ r hp

lemma window_decomp (right buffer left : List Nat) (L m : Nat)
    (h1 : m ≤ right.length)
    (h2 : right.length - m + buffer.length ≤ L) :
    List.take L (List.drop m (right ++ buffer ++ left)) =
      right.drop m ++ buffer ++ left.take (L - (right.length - m) - buffer.length) := by
  have hdrop : (right ++ buffer ++ left).drop m = right.drop m ++ (buffer ++ left) := by
    rw [List.append_assoc, List.drop_append_eq_append_drop,
      Nat.sub_eq_zero_of_le h1, List.drop_zero]
  rw [hdrop]
  rw [List.take_append_eq_append_take]
  rw [List.take_of_length_le (le_of_eq_of_le (List.length_drop m right) (by omega))]
  rw [List.take_append_eq_append_take]
  rw [List.take_of_length_le (by
    rw [List.length_drop]
    omega)]
  rw [List.length_drop, List.append_assoc]

lemma pad_loop_decomp :
    ∀ (fuel L : Nat) (alphabet buffer r : List Nat),
      pad_loop L (alphabet.length / 2) fuel alphabet buffer = some r →
      ∃ x y, r = x ++ buffer ++ y ∧ (∀ a ∈ x, a ∈ alphabet) ∧ (∀ a ∈ y, a ∈ alphabet)
  | 0, L, alphabet, buffer, r, hp => by
    rw [pad_loop] at hp
    split at hp
    · injection hp with h1
      exact ⟨[], [], by simp [h1.symm], by simp, by simp⟩
    · exact absurd hp (by simp)
  | fuel + 1, L, alphabet, buffer, r, hp => by
    rw [pad_loop] at hp
    split at hp
    · injection hp with h1
      exact ⟨[], [], by simp [h1.symm], by simp, by simp⟩
    · rename_i hL
      have hlen2 : (shuffle alphabet alphabet).length = alphabet.length :=
        shuffle_length alphabet alphabet
      have hmem12 : ∀ a ∈ shuffle alphabet alphabet, a ∈ alphabet := fun a ha =>
        (shuffle_mem alphabet alphabet a).mp ha
      simp only at hp
      rw [show alphabet.length / 2 = (shuffle alphabet alphabet).length / 2 from
        by rw [hlen2]] at hp
      generalize hA : shuffle alphabet alphabet = A2 at hp hlen2 hmem12
      set right := A2.drop (A2.length / 2) with hrd
      set left := A2.take (A2.length / 2) with hld
      have hlenr : right.length = A2.length - A2.length / 2 := by
        rw [hrd, List.length_drop]
      have hlenl : left.length = A2.length / 2 := by
        rw [hld, List.length_take]
        have := Nat.div_le_self A2.length 2
        omega
      have hmemr : ∀ a ∈ right, a ∈ alphabet := fun a ha =>
        hmem12 a ((List.drop_sublist _ _).subset ha)
      have hmeml : ∀ a ∈ left, a ∈ alphabet := fun a ha =>
        hmem12 a ((List.take_sublist _ _).subset ha)
      by_cases htrim : L < (right ++ buffer ++ left).length
      · rw [if_pos htrim] at hp
        obtain ⟨x2, y2, hr, hx2, hy2⟩ := pad_loop_decomp fuel L A2 _ r hp
        have hbl : buffer.length < L := by omega
        have hB2 : (right ++ buffer ++ left).length =
            right.length + buffer.length + left.length := by
          simp [List.length_append]
          omega
        have hwd := window_decomp right buffer left L
          (((right ++ buffer ++ left).length - L) / 2)
          (by omega) (by omega)
        rw [hwd] at hr
        refine ⟨x2 ++ right.drop (((right ++ buffer ++ left).length - L) / 2),
          left.take (L - (right.length - ((right ++ buffer ++ left).length - L) / 2)
            - buffer.length) ++ y2, ?_, ?_, ?_⟩
        · rw [hr]; simp [List.append_assoc]
        · intro a ha
          rcases List.mem_append.mp ha with h1 | h2
          · exact hmem12 a (hx2 a h1)
          · exact hmemr a ((List.drop_sublist _ _).subset h2)
        · intro a ha
          rcases List.mem_append.mp ha with h1 | h2
          · exact hmeml a ((List.take_sublist _ _).subset h1)
          · exact hmem12 a (hy2 a h2)
      · rw [if_neg htrim] at hp
        obtain ⟨x2, y2, hr, hx2, hy2⟩ := pad_loop_decomp fuel L A2 _ r hp
        refine ⟨x2 ++ right, left ++ y2, ?_, ?_, ?_⟩
        · rw [hr]; simp [List.append_assoc]
        · intro a ha
          rcases List.mem_append.mp ha with h1 | h2
          · exact hmem12 a (hx2 a h1)
          · exact hmemr a h2
        · intro a ha
          rcases List.mem_append.mp ha with h1 | h2
          · exact hmeml a h1
          · exact hmem12 a (hy2 a h2)

/-! ### Decode: guard stripping on the shapes `encode` produces -/

lemma decode_clean (h : Harsh) (lottery : Nat) (body : List Nat)
    (hcl : ∀ a ∈ lottery :: body, a ∉ h.guards) (hne : body ≠ []) :
    decode h (lottery :: body) =
      decode_segments lottery h.salt h.alphabet
        (body.splitOnP (fun u => h.separators.contains u)) := by
  have hnone : (lottery :: body).findIdx? (fun u => h.guards.contains u) = none :=
    findIdx?_none_of_clean _ _ (fun a ha => (contains_false_iff _ _).mpr (hcl a ha))
  have hnone2 : (lottery :: body).reverse.findIdx? (fun u => h.guards.contains u) = none :=
    findIdx?_none_of_clean _ _
      (fun a ha => (contains_false_iff _ _).mpr (hcl a (List.mem_reverse.mp ha)))
  have hlen : ¬ (lottery :: body).length < 2 := by
    have := List.length_pos.mpr hne
    simp only [List.length_cons]
    omega
  simp only [decode, hnone, hnone2, if_neg hlen]

lemma decode_one_guard (h : Harsh) (g1 lottery : Nat) (body : List Nat)
    (hg1 : g1 ∈ h.guards) (hcl : ∀ a ∈ lottery :: body, a ∉ h.guards) (hne : body ≠ []) :
    decode h (g1 :: lottery :: body) =
      decode_segments lottery h.salt h.alphabet
        (body.splitOnP (fun u => h.separators.contains u)) := by
  have hfi : (g1 :: lottery :: body).findIdx? (fun u => h.guards.contains u) = some 0 := by
    rw [List.findIdx?_cons, (contains_true_iff _ _).mpr hg1]
    simp
  have hnone2 : (lottery :: body).reverse.findIdx? (fun u => h.guards.contains u) = none :=
    findIdx?_none_of_clean _ _
      (fun a ha => (contains_false_iff _ _).mpr (hcl a (List.mem_reverse.mp ha)))
  have hlen : ¬ (lottery :: body).length < 2 := by
    have := List.length_pos.mpr hne
    simp only [List.length_cons]
    omega
  simp only [decode, hfi]
  have hdrop : (g1 :: lottery :: body).drop (0 + 1) = lottery :: body := rfl
  rw [hdrop, hnone2, if_neg hlen]

lemma decode_two_guards (h : Harsh) (x y : List Nat) (g1 g2 lottery : Nat) (body : List Nat)
    (hg1 : g1 ∈ h.guards) (hg2 : g2 ∈ h.guards)
    (hx : ∀ a ∈ x, a ∉ h.guards) (hy : ∀ a ∈ y, a ∉ h.guards)
    (hcl : ∀ a ∈ lottery :: body, a ∉ h.guards) (hne : body ≠ []) :
    decode h (x ++ g1 :: ((lottery :: body) ++ g2 :: y)) =
      decode_segments lottery h.salt h.alphabet
        (body.splitOnP (fun u => h.separators.contains u)) := by
  have hfi : (x ++ g1 :: ((lottery :: body) ++ g2 :: y)).findIdx?
      (fun u => h.guards.contains u) = some x.length :=
    findIdx?_clean_append _ x g1 _
      (fun a ha => (contains_false_iff _ _).mpr (hx a ha))
      ((contains_true_iff _ _).mpr hg1)
  have hdrop : (x ++ g1 :: ((lottery :: body) ++ g2 :: y)).drop (x.length + 1)
      = (lottery :: body) ++ g2 :: y := by
    rw [List.drop_append_eq_append_drop, List.drop_of_length_le (by omega),
      Nat.add_sub_cancel_left]
    rfl
  have hrev : ((lottery :: body) ++ g2 :: y).reverse
      = y.reverse ++ g2 :: (lottery :: body).reverse := by
    rw [List.reverse_append, List.reverse_cons, List.append_assoc]
    rfl
  have hfi2 : ((lottery :: body) ++ g2 :: y).reverse.findIdx?
      (fun u => h.guards.contains u) = some y.reverse.length := by
    rw [hrev]
    exact findIdx?_clean_append _ y.reverse g2 _
      (fun a ha => (contains_false_iff _ _).mpr (hy a (List.mem_reverse.mp ha)))
      ((contains_true_iff _ _).mpr hg2)
  have hidx : ((lottery :: body) ++ g2 :: y).length - 1 - y.reverse.length
      = (lottery :: body).length := by
    simp only [List.length_append, List.length_cons, List.length_reverse]
    omega
  have htake : ((lottery :: body) ++ g2 :: y).take
      (((lottery :: body) ++ g2 :: y).length - 1 - y.reverse.length) = lottery :: body := by
    rw [hidx]
    exact List.take_left (lottery :: body) (g2 :: y)
  have hlen : ¬ (lottery :: body).length < 2 := by
    have := List.length_pos.mpr hne
    simp only [List.length_cons]
    omega
  simp only [decode, hfi, hdrop, hfi2, htake, if_neg hlen]

/-! ### The round trip -/

lemma encode_values_af_perm (lottery : Nat) (salt seps : List Nat) :
    ∀ (vs : List Nat) (idx : Nat) (alphabet body af : List Nat),
      encode_values lottery salt seps idx alphabet vs = some (body, af) →
      List.Perm af alphabet
  | [], idx, alphabet, body, af, henc => by
    simp only [encode_values] at henc
    injection henc with h1
    injection h1 with h2 h3
    exact h3 ▸ List.Perm.refl alphabet
  | v :: vs, idx, alphabet, body, af, henc => by
    simp only [encode_values] at henc
    cases hh : hash v (next_alphabet lottery salt alphabet) with
    | none => rw [hh] at henc; exact absurd henc (by simp)
    | some last =>
      simp only [hh] at henc
      by_cases hvs : vs.isEmpty
      · rw [if_pos hvs] at henc
        injection henc with h1
        injection h1 with h2 h3
        exact h3 ▸ next_alphabet_perm lottery salt alphabet
      · rw [if_neg hvs] at henc
        by_cases hd : last.headD 0 + idx = 0
        · rw [if_pos hd] at henc; exact absurd henc (by simp)
        · rw [if_neg hd] at henc
          by_cases hse : seps.isEmpty
          · rw [if_pos hse] at henc; exact absurd henc (by simp)
          · rw [if_neg hse] at henc
            cases hrec : encode_values lottery salt seps (idx + 1)
                (next_alphabet lottery salt alphabet) vs with
            | none => rw [hrec] at henc; exact absurd henc (by simp)
            | some p =>
              obtain ⟨rest, af2⟩ := p
              simp only [hrec] at henc
              injection henc with h1
              injection h1 with h2 h3
              have := encode_values_af_perm lottery salt seps vs (idx + 1)
                (next_alphabet lottery salt alphabet) rest af2 hrec
              exact h3 ▸ (this.trans (next_alphabet_perm lottery salt alphabet))

/-- Core round-trip lemma: whenever `encode` returns a string, `decode`
recovers exactly the original values, provided the configuration's
alphabet is duplicate-free and alphabet, separators and guards are
pairwise disjoint, and the values are within `u64` range. -/
lemma round_trip_core (h : Harsh) (values s : List Nat)
    (hnd : h.alphabet.Nodup)
    (has : ∀ x ∈ h.alphabet, x ∉ h.separators)
    (hag : ∀ x ∈ h.alphabet, x ∉ h.guards)
    (hsg : ∀ x ∈ h.separators, x ∉ h.guards)
    (hv : ∀ v ∈ values, v < W)
    (henc : encode h values = some s) :
    decode h s = some values := by
  simp only [encode] at henc
  by_cases hvne : values.isEmpty
  · rw [if_pos hvne] at henc; exact absurd henc (by simp)
  rw [if_neg hvne] at henc
  by_cases hane : h.alphabet.isEmpty
  · rw [if_pos hane] at henc; exact absurd henc (by simp)
  rw [if_neg hane] at henc
  have halne : h.alphabet ≠ [] := by
    intro hcon; rw [hcon] at hane; simp at hane
  have hvalne : values ≠ [] := by
    intro hcon; rw [hcon] at hvne; simp at hvne
  have halen : 0 < h.alphabet.length := List.length_pos.mpr halne
  set nh := create_nhash values with hnh
  set lot := h.alphabet.getD (nh % h.alphabet.length) 0 with hlot
  have hlotmem : lot ∈ h.alphabet := by
    rw [hlot, List.getD_eq_getElem h.alphabet 0 (Nat.mod_lt _ halen)]
    exact List.getElem_mem _
  cases hev : encode_values lot h.salt h.separators 0 h.alphabet values with
  | none => rw [hev] at henc; exact absurd henc (by simp)
  | some p =>
    obtain ⟨body, af⟩ := p
    simp only [hev] at henc
    cases hgs : guard_step h nh (lot :: body) with
    | none => rw [hgs] at henc; exact absurd henc (by simp)
    | some buffer4 =>
      simp only [hgs] at henc
      obtain ⟨hseg, hbodyne, hbodymem⟩ := decode_encode_values lot h.salt h.separators
        values 0 h.alphabet body af hnd has hv hvalne hev
      have hafperm := encode_values_af_perm lot h.salt h.separators values 0
        h.alphabet body af hev
      have hafmem : ∀ a ∈ af, a ∈ h.alphabet := fun a ha => hafperm.mem_iff.mp ha
      have hplclean : ∀ a ∈ lot :: body, a ∉ h.guards := by
        intro a ha
        rcases List.mem_cons.mp ha with h1 | h2
        · exact hag a (h1 ▸ hlotmem)
        · rcases hbodymem a h2 with h3 | h4
          · exact hag a h3
          · exact hsg a h4
      rcases guard_step_cases h nh (lot :: body) buffer4 hgs with
        ⟨hb4, hlen4⟩ | ⟨g1, hg1, hb4, hlen4⟩ | ⟨g1, g2, hg1, hg2, hb4⟩
      · rw [hb4, pad_loop_of_le _ _ _ _ _ hlen4] at henc
        injection henc with h1
        rw [← h1, decode_clean h lot body hplclean hbodyne]
        exact hseg
      · rw [hb4] at henc
        rw [hb4] at hlen4
        rw [pad_loop_of_le _ _ _ _ _ hlen4] at henc
        injection henc with h1
        rw [← h1, decode_one_guard h g1 lot body hg1 hplclean hbodyne]
        exact hseg
      · rw [hb4] at henc
        obtain ⟨x, y, hs, hxm, hym⟩ := pad_loop_decomp (h.hash_length + 1) h.hash_length
          af _ s henc
        have hxg : ∀ a ∈ x, a ∉ h.guards := fun a ha => hag a (hafmem a (hxm a ha))
        have hyg : ∀ a ∈ y, a ∉ h.guards := fun a ha => hag a (hafmem a (hym a ha))
        have hshape : x ++ (g1 :: (lot :: body) ++ [g2]) ++ y
            = x ++ g1 :: ((lot :: body) ++ g2 :: y) := by
          simp [List.append_assoc]
        rw [hshape] at hs
        rw [hs, decode_two_guards h x y g1 g2 lot body hg1 hg2 hxg hyg hplclean hbodyne]
        exact hseg

/-! ### Totality of `encode` on well-formed configurations -/

lemma headD_mem (l : List Nat) (h : l ≠ []) : l.headD 0 ∈ l := by
  cases l with
  | nil => exact absurd rfl h
  | cons a t => exact List.mem_cons_self a t

lemma hashFuel_total (alphabet : List Nat) (h2 : 2 ≤ alphabet.length) :
    ∀ (f v : Nat), v < f → ∃ ds, hashFuel alphabet f v = some ds
  | 0, v, hv => absurd hv (by omega)
  | f + 1, v, hv => by
    rw [hashFuel]
    by_cases hz : v / alphabet.length = 0
    · rw [if_pos hz]; exact ⟨_, rfl⟩
    · rw [if_neg hz]
      have h1 : 1 ≤ v := by
        rcases Nat.eq_zero_or_pos v with h0 | h0
        · exact absurd (by simp [h0]) hz
        · exact h0
      have hlt : v / alphabet.length < v := Nat.div_lt_self h1 h2
      obtain ⟨ds2, hds2⟩ := hashFuel_total alphabet h2 f (v / alphabet.length) (by omega)
      rw [hds2]
      exact ⟨_, rfl⟩

lemma hash_total (v : Nat) (alphabet : List Nat) (h2 : 2 ≤ alphabet.length) :
    ∃ ds, hash v alphabet = some ds := by
  rw [hash, if_neg (by
    intro hcon
    rw [List.isEmpty_iff] at hcon
    rw [hcon] at h2
    simp at h2)]
  exact hashFuel_total alphabet h2 (v + 1) v (by omega)

lemma encode_values_total (lottery : Nat) (salt seps : List Nat) (hsep : seps ≠ []) :
    ∀ (vs : List Nat) (idx : Nat) (alphabet : List Nat),
      2 ≤ alphabet.length → (∀ x ∈ alphabet, 0 < x) →
      ∃ body af, encode_values lottery salt seps idx alphabet vs = some (body, af)
  | [], _, alphabet, _, _ => ⟨[], alphabet, rfl⟩
  | v :: vs, idx, alphabet, hlen, hpos => by
    simp only [encode_values]
    have hlen2 : 2 ≤ (next_alphabet lottery salt alphabet).length := by
      rw [next_alphabet_length]; exact hlen
    have hpos2 : ∀ x ∈ next_alphabet lottery salt alphabet, 0 < x := fun x hx =>
      hpos x ((next_alphabet_mem _ _ _ x).mp hx)
    obtain ⟨ds, hds⟩ := hash_total v _ hlen2
    simp only [hds]
    by_cases hvs : vs.isEmpty
    · rw [if_pos hvs]; exact ⟨_, _, rfl⟩
    · rw [if_neg hvs]
      have hdsne : ds ≠ [] := hash_ne_nil v _ ds hds
      have hhead : 0 < ds.headD 0 :=
        hpos2 (ds.headD 0) (hash_mem v _ ds hds _ (headD_mem ds hdsne))
      rw [if_neg (by omega)]
      rw [if_neg (by
        intro hcon
        rw [List.isEmpty_iff] at hcon
        exact hsep hcon)]
      obtain ⟨rest, af, hrec⟩ := encode_values_total lottery salt seps hsep vs (idx + 1)
        (next_alphabet lottery salt alphabet) hlen2 hpos2
      simp only [hrec]
      exact ⟨_, _, rfl⟩

lemma encode_values_body_ne (lottery : Nat) (salt seps : List Nat) (v : Nat)
    (vs : List Nat) (idx : Nat) (alphabet body af : List Nat)
    (henc : encode_values lottery salt seps idx alphabet (v :: vs) = some (body, af)) :
    body ≠ [] := by
  simp only [encode_values] at henc
  cases hh : hash v (next_alphabet lottery salt alphabet) with
  | none => rw [hh] at henc; exact absurd henc (by simp)
  | some last =>
    simp only [hh] at henc
    have hlastne := hash_ne_nil v _ last hh
    by_cases hvs : vs.isEmpty
    · rw [if_pos hvs] at henc
      injection henc with h1
      injection h1 with h2 h3
      exact h2 ▸ hlastne
    · rw [if_neg hvs] at henc
      by_cases hd : last.headD 0 + idx = 0
      · rw [if_pos hd] at henc; exact absurd henc (by simp)
      · rw [if_neg hd] at henc
        by_cases hse : seps.isEmpty
        · rw [if_pos hse] at henc; exact absurd henc (by simp)
        · rw [if_neg hse] at henc
          cases hrec : encode_values lottery salt seps (idx + 1)
              (next_alphabet lottery salt alphabet) vs with
          | none => rw [hrec] at henc; exact absurd henc (by simp)
          | some p =>
            obtain ⟨rest, af2⟩ := p
            simp only [hrec] at henc
            injection henc with h1
            injection h1 with h2 h3
            rw [← h2]
            intro hcon
            rcases List.append_eq_nil.mp hcon with ⟨ha, hb⟩
            exact hlastne ha

lemma guard_step_total (h : Harsh) (nhash : Nat) (buffer : List Nat)
    (hlen : 2 ≤ buffer.length) (hg : h.guards ≠ [] ∨ h.hash_length = 0) :
    ∃ b4, guard_step h nhash buffer = some b4 := by
  rw [guard_step]
  by_cases h1 : buffer.length < h.hash_length
  · rcases hg with hgne | hg0
    · rw [if_pos h1]
      rw [if_neg (by
        intro hcon
        rw [List.isEmpty_iff] at hcon
        exact hgne hcon)]
      by_cases h3 : (h.guards.getD ((nhash + buffer.headD 0) % W % h.guards.length) 0
          :: buffer).length < h.hash_length
      · rw [if_pos h3]
        rw [if_neg (by simp only [List.length_cons]; omega)]
        exact ⟨_, rfl⟩
      · rw [if_neg h3]
        exact ⟨_, rfl⟩
    · omega
  · rw [if_neg h1]
    exact ⟨_, rfl⟩

lemma pad_loop_total (L half : Nat) :
    ∀ (fuel : Nat) (alphabet buffer : List Nat), alphabet ≠ [] →
      L ≤ buffer.length + fuel →
      ∃ r, pad_loop L half fuel alphabet buffer = some r
  | 0, alphabet, buffer, _, hfu => by
    rw [pad_loop, if_pos (by omega)]
    exact ⟨_, rfl⟩
  | fuel + 1, alphabet, buffer, hane, hfu => by
    rw [pad_loop]
    by_cases hL : L ≤ buffer.length
    · rw [if_pos hL]; exact ⟨_, rfl⟩
    · rw [if_neg hL]
      simp only
      have hane2 : shuffle alphabet alphabet ≠ [] := by
        intro hcon
        have := shuffle_length alphabet alphabet
        rw [hcon] at this
        exact hane (List.length_eq_zero.mp this.symm)
      have hA : 0 < (shuffle alphabet alphabet).length := List.length_pos.mpr hane2
      set right := (shuffle alphabet alphabet).drop half
      set left := (shuffle alphabet alphabet).take half
      by_cases htrim : L < (right ++ buffer ++ left).length
      · rw [if_pos htrim]
        refine pad_loop_total L half fuel _ _ hane2 ?_
        have hexp : (right ++ buffer ++ left).length
            = right.length + buffer.length + left.length := by
          simp [List.length_append]
          omega
        rw [List.length_take, List.length_drop, hexp]
        rw [hexp] at htrim
        have hm := Nat.div_le_self (right.length + buffer.length + left.length - L) 2
        have hsum : left.length + right.length = (shuffle alphabet alphabet).length := by
          rw [List.length_take, List.length_drop]
          omega
        omega
      · rw [if_neg htrim]
        refine pad_loop_total L half fuel _ _ hane2 ?_
        have hsum : left.length + right.length = (shuffle alphabet alphabet).length := by
          rw [List.length_take, List.length_drop]
          omega
        simp only [List.length_append] at htrim ⊢
        omega

/-- Totality of `encode`: on a configuration whose alphabet has at least two
symbols, all positive, with non-empty separators and (non-empty guards or a
zero minimum length), `encode` succeeds on every non-empty input. -/
lemma encode_total (h : Harsh) (values : List Nat)
    (h2 : 2 ≤ h.alphabet.length) (hpos : ∀ x ∈ h.alphabet, 0 < x)
    (hsep : h.separators ≠ []) (hg : h.guards ≠ [] ∨ h.hash_length = 0)
    (hvne : values ≠ []) :
    ∃ s, encode h values = some s := by
  rw [encode]
  rw [if_neg (by
    intro hcon
    rw [List.isEmpty_iff] at hcon
    exact hvne hcon)]
  rw [if_neg (by
    intro hcon
    rw [List.isEmpty_iff] at hcon
    rw [hcon] at h2
    simp at h2)]
  obtain ⟨body, af, hev⟩ := encode_values_total
    (h.alphabet.getD (create_nhash values % h.alphabet.length) 0) h.salt h.separators hsep
    values 0 h.alphabet h2 hpos
  simp only [hev]
  have hbody : body ≠ [] := by
    cases values with
    | nil => exact absurd rfl hvne
    | cons v vs => exact encode_values_body_ne _ _ _ v vs 0 h.alphabet body af hev
  obtain ⟨b4, hb4⟩ := guard_step_total h (create_nhash values)
    (h.alphabet.getD (create_nhash values % h.alphabet.length) 0 :: body)
    (by simp only [List.length_cons]; have := List.length_pos.mpr hbody; omega) hg
  simp only [hb4]
  have hafne : af ≠ [] := by
    have hperm := encode_values_af_perm _ _ _ values 0 h.alphabet body af hev
    intro hcon
    rw [hcon] at hperm
    have := hperm.length_eq
    simp at this
    omega
  exact pad_loop_total h.hash_length (af.length / 2) (h.hash_length + 1) af b4 hafne
    (by omega)

/-! ### Invariants of configuration resolution -/

lemma nodup_drop_not_mem_take (l : List Nat) (n : Nat) (h : l.Nodup) :
    ∀ x ∈ l.drop n, x ∉ l.take n := by
  have hsplit := List.take_append_drop n l
  rw [← hsplit] at h
  have hd := (List.nodup_append.mp h).2.2
  intro x hx hc
  exact hd hc hx

lemma nodup_take_not_mem_drop (l : List Nat) (n : Nat) (h : l.Nodup) :
    ∀ x ∈ l.take n, x ∉ l.drop n := by
  have hsplit := List.take_append_drop n l
  rw [← hsplit] at h
  have hd := (List.nodup_append.mp h).2.2
  intro x hx hc
  exact hd hx hc

lemma dedup_first_spec :
    ∀ (l seen : List Nat), (dedup_first seen l).Nodup ∧ (∀ x ∈ dedup_first seen l, x ∉ seen)
  | [], seen => ⟨List.nodup_nil, by simp [dedup_first]⟩
  | x :: xs, seen => by
    rw [dedup_first]
    by_cases hx : x ∈ seen
    · rw [if_pos hx]
      exact dedup_first_spec xs seen
    · rw [if_neg hx]
      obtain ⟨hnd, hmem⟩ := dedup_first_spec xs (x :: seen)
      refine ⟨List.nodup_cons.mpr ⟨?_, hnd⟩, ?_⟩
      · intro hc
        exact hmem x hc (List.mem_cons_self x seen)
      · intro y hy
        rcases List.mem_cons.mp hy with h1 | h2
        · exact h1 ▸ hx
        · exact fun hc => hmem y h2 (List.mem_cons_of_mem x hc)

lemma unique_alphabet_nodup (a0 : Option (List Nat)) (a : List Nat)
    (h : unique_alphabet a0 = some a) : a.Nodup := by
  cases a0 with
  | none =>
    simp only [unique_alphabet] at h
    injection h with h1
    rw [← h1]
    decide
  | some l =>
    simp only [unique_alphabet] at h
    split at h
    · exact absurd h (by simp)
    · split at h
      · exact absurd h (by simp)
      · injection h with h1
        exact h1 ▸ (dedup_first_spec l []).1

lemma alphabet_and_separators_spec (seps0 : Option (List Nat)) (alphabet salt : List Nat)
    (hnd : alphabet.Nodup)
    (hs : ∀ l, seps0 = some l → l.Nodup)
    (a2 s2 : List Nat)
    (hres : alphabet_and_separators seps0 alphabet salt = some (a2, s2)) :
    a2.Nodup ∧ s2.Nodup ∧ (∀ x ∈ a2, x ∉ s2) := by
  have hseps_nd : (seps0.getD DEFAULT_SEPARATORS).Nodup := by
    cases seps0 with
    | none => exact (by decide : DEFAULT_SEPARATORS.Nodup)
    | some l => exact hs l rfl
  simp only [alphabet_and_separators] at hres
  set seps := seps0.getD DEFAULT_SEPARATORS with hsd
  set s0 := seps.filter (fun x => decide (x ∈ alphabet)) with hs0d
  set a0 := alphabet.filter (fun x => decide (¬ x ∈ s0)) with ha0d
  set s1 := shuffle s0 salt with hs1d
  have hs0nd : s0.Nodup := hseps_nd.filter _
  have ha0nd : a0.Nodup := hnd.filter _
  have hs1nd : s1.Nodup := shuffle_nodup _ _ hs0nd
  have hdisj0 : ∀ x ∈ a0, x ∉ s1 := by
    intro x hx hmem
    have h1 : x ∈ s0 := (shuffle_mem _ _ x).mp hmem
    have hxf := List.of_mem_filter hx
    simp only [decide_eq_true_eq] at hxf
    exact hxf h1
  split at hres
  · set lenv := if (2 * a0.length + 6) / 7 = 1 then 2 else (2 * a0.length + 6) / 7 with hlenv
    split at hres
    · split at hres
      · injection hres with h1
        injection h1 with h2 h3
        subst h2
        subst h3
        refine ⟨shuffle_nodup _ _ (ha0nd.sublist (List.drop_sublist _ _)), ?_, ?_⟩
        · rw [List.nodup_append]
          refine ⟨hs1nd, ha0nd.sublist (List.take_sublist _ _), ?_⟩
          intro x hx hc
          exact hdisj0 x ((List.take_sublist _ _).subset hc) hx
        · intro x hx
          have hxd : x ∈ a0.drop _ := (shuffle_mem _ _ x).mp hx
          have hxa : x ∈ a0 := (List.drop_sublist _ _).subset hxd
          intro hc
          rcases List.mem_append.mp hc with h4 | h5
          · exact hdisj0 x hxa h4
          · exact nodup_drop_not_mem_take a0 _ ha0nd x hxd h5
      · exact absurd hres (by simp)
    · injection hres with h1
      injection h1 with h2 h3
      subst h2
      subst h3
      refine ⟨shuffle_nodup _ _ ha0nd, hs1nd.sublist (List.take_sublist _ _), ?_⟩
      intro x hx hc
      exact hdisj0 x ((shuffle_mem _ _ x).mp hx) ((List.take_sublist _ _).subset hc)
  · injection hres with h1
    injection h1 with h2 h3
    subst h2
    subst h3
    refine ⟨shuffle_nodup _ _ ha0nd, hs1nd, ?_⟩
    intro x hx
    exact hdisj0 x ((shuffle_mem _ _ x).mp hx)

lemma guardsFn_spec (alphabet separators : List Nat)
    (hna : alphabet.Nodup) (hns : separators.Nodup)
    (hd : ∀ x ∈ alphabet, x ∉ separators)
    (a2 s2 g2 : List Nat) (hres : guardsFn alphabet separators = some (a2, s2, g2)) :
    a2.Nodup ∧ s2.Nodup ∧ g2.Nodup ∧
      (∀ x ∈ a2, x ∉ s2) ∧ (∀ x ∈ a2, x ∉ g2) ∧ (∀ x ∈ s2, x ∉ g2) := by
  simp only [guardsFn] at hres
  split at hres
  · split at hres
    · injection hres with h1
      injection h1 with h2 h3
      injection h3 with h4 h5
      subst h2; subst h4; subst h5
      refine ⟨hna, hns.sublist (List.drop_sublist _ _), hns.sublist (List.take_sublist _ _),
        ?_, ?_, ?_⟩
      · intro x hx hc
        exact hd x hx ((List.drop_sublist _ _).subset hc)
      · intro x hx hc
        exact hd x hx ((List.take_sublist _ _).subset hc)
      · exact nodup_drop_not_mem_take separators _ hns
    · exact absurd hres (by simp)
  · split at hres
    · injection hres with h1
      injection h1 with h2 h3
      injection h3 with h4 h5
      subst h2; subst h4; subst h5
      refine ⟨hna.sublist (List.drop_sublist _ _), hns, hna.sublist (List.take_sublist _ _),
        ?_, ?_, ?_⟩
      · intro x hx hc
        exact hd x ((List.drop_sublist _ _).subset hx) hc
      · exact nodup_drop_not_mem_take alphabet _ hna
      · intro x hx hc
        exact hd x ((List.take_sublist _ _).subset hc) hx
    · exact absurd hres (by simp)

/-- Resolver invariants: with a duplicate-free user separator list (or the
default), the resolved alphabet, separators and guards are individually
duplicate-free and pairwise disjoint. -/
lemma init_invariants (salt0 alphabet0 seps0 : Option (List Nat)) (L : Nat) (h : Harsh)
    (hs : ∀ l, seps0 = some l → l.Nodup)
    (hinit : init salt0 alphabet0 seps0 L = some h) :
    h.alphabet.Nodup ∧ h.separators.Nodup ∧ h.guards.Nodup ∧
      (∀ x ∈ h.alphabet, x ∉ h.separators) ∧
      (∀ x ∈ h.alphabet, x ∉ h.guards) ∧
      (∀ x ∈ h.separators, x ∉ h.guards) := by
  simp only [init] at hinit
  cases hu : unique_alphabet alphabet0 with
  | none => rw [hu] at hinit; exact absurd hinit (by simp)
  | some a =>
    simp only [hu] at hinit
    split at hinit
    · exact absurd hinit (by simp)
    · cases hab : alphabet_and_separators seps0 a (salt0.getD []) with
      | none => rw [hab] at hinit; exact absurd hinit (by simp)
      | some p =>
        obtain ⟨a1, s1⟩ := p
        simp only [hab] at hinit
        cases hg : guardsFn a1 s1 with
        | none => rw [hg] at hinit; exact absurd hinit (by simp)
        | some q =>
          obtain ⟨a2, s2, g2⟩ := q
          simp only [hg] at hinit
          injection hinit with h1
          obtain ⟨hna1, hns1, hd1⟩ := alphabet_and_separators_spec seps0 a
            (salt0.getD []) (unique_alphabet_nodup alphabet0 a hu) hs a1 s1 hab
          obtain ⟨q1, q2, q3, q4, q5, q6⟩ := guardsFn_spec a1 s1 hna1 hns1 hd1 a2 s2 g2 hg
          rw [← h1]
          exact ⟨q1, q2, q3, q4, q5, q6⟩

/-! ### The hex adapter -/

/-- ASCII lowercasing of a byte, as `str::to_lowercase` acts on the ASCII
hex strings the hex round-trip concerns. -/
def to_lower (b : Nat) : Nat := if 65 ≤ b ∧ b ≤ 90 then b + 32 else b

/-- Pure value of a hex digit string (the fold inside `from_str_radix16`). -/
def hexValList (l : List Nat) : Nat := l.foldl (fun a b => a * 16 + hex_val b) 0

/-- Value of a chunk as parsed with its leading `'1'` digit. -/
def chunkVal (c : List Nat) : Nat := 16 ^ c.length + hexValList c

lemma hex_val_lt (b : Nat) (h : is_hex_digit b = true) : hex_val b < 16 := by
  simp only [is_hex_digit, Bool.or_eq_true, Bool.and_eq_true, decide_eq_true_eq] at h
  unfold hex_val
  split
  · omega
  · split <;> omega

lemma char_hexval_tolower (b : Nat) (h : is_hex_digit b = true) :
    hex_digit_char (hex_val b) = to_lower b := by
  simp only [is_hex_digit, Bool.or_eq_true, Bool.and_eq_true, decide_eq_true_eq] at h
  unfold hex_val hex_digit_char to_lower
  split_ifs <;> omega

lemma hex_foldl_shift :
    ∀ (l : List Nat) (a : Nat),
      l.foldl (fun a b => a * 16 + hex_val b) a = a * 16 ^ l.length + hexValList l
  | [], a => by simp [hexValList]
  | b :: l, a => by
    show (b :: l).foldl (fun a b => a * 16 + hex_val b) a = _
    rw [List.foldl_cons, hex_foldl_shift l (a * 16 + hex_val b)]
    have hr : hexValList (b :: l) = hex_val b * 16 ^ l.length + hexValList l := by
      rw [hexValList, List.foldl_cons, hex_foldl_shift l (0 * 16 + hex_val b)]
      ring_nf
    rw [hr]
    simp only [List.length_cons]
    ring

lemma hexValList_append (l : List Nat) (b : Nat) :
    hexValList (l ++ [b]) = hexValList l * 16 + hex_val b := by
  rw [hexValList, List.foldl_append]
  rfl

lemma hexValList_lt :
    ∀ (l : List Nat), (∀ b ∈ l, is_hex_digit b = true) → hexValList l < 16 ^ l.length
  | [], _ => by simp [hexValList]
  | b :: l, h => by
    have hr : hexValList (b :: l) = hex_val b * 16 ^ l.length + hexValList l := by
      rw [hexValList, List.foldl_cons, hex_foldl_shift l (0 * 16 + hex_val b)]
      ring_nf
    rw [hr]
    have h1 := hexValList_lt l (fun x hx => h x (List.mem_cons_of_mem b hx))
    have h2 := hex_val_lt b (h b (List.mem_cons_self b l))
    simp only [List.length_cons, pow_succ]
    nlinarith [pow_pos (show 0 < 16 by omega) l.length]

lemma from_str_radix16_prefixed (c : List Nat)
    (hhex : ∀ b ∈ c, is_hex_digit b = true) (hlen : c.length ≤ 12) :
    from_str_radix16 (49 :: c) = some (chunkVal c) := by
  have hall : (49 :: c).all is_hex_digit = true := by
    rw [List.all_eq_true]
    intro b hb
    rcases List.mem_cons.mp hb with h1 | h2
    · subst h1; decide
    · exact hhex b h2
  rw [from_str_radix16, if_neg (by simp), if_pos hall]
  have hfold : (49 :: c).foldl (fun a b => a * 16 + hex_val b) 0 = chunkVal c := by
    rw [List.foldl_cons, hex_foldl_shift, chunkVal]
    norm_num [hex_val]
  rw [hfold]
  have hlt : chunkVal c < W := by
    have h1 : hexValList c < 16 ^ c.length := hexValList_lt c hhex
    have h2 : (16 : Nat) ^ c.length ≤ 16 ^ 12 := Nat.pow_le_pow_right (by omega) hlen
    have h3 : (2 : Nat) * 16 ^ 12 < 2 ^ 64 := by norm_num
    rw [chunkVal, W]
    omega
  rw [if_pos hlt]

lemma chunkVal_pos (c : List Nat) : 0 < chunkVal c := by
  have := Nat.pos_pow_of_pos c.length (show 0 < 16 by omega)
  rw [chunkVal]
  omega

lemma chunkVal_lt_W (c : List Nat)
    (hhex : ∀ b ∈ c, is_hex_digit b = true) (hlen : c.length ≤ 12) : chunkVal c < W := by
  have h1 : hexValList c < 16 ^ c.length := hexValList_lt c hhex
  have h2 : (16 : Nat) ^ c.length ≤ 16 ^ 12 := Nat.pow_le_pow_right (by omega) hlen
  have h3 : (2 : Nat) * 16 ^ 12 < 2 ^ 64 := by norm_num
  rw [chunkVal, W]
  omega

/-- Spec-side hex digit expansion of a positive number, most significant
digit first. -/
def hexDigitsSpec (n : Nat) : List Nat :=
  if h : n = 0 then []
  else hexDigitsSpec (n / 16) ++ [hex_digit_char (n % 16)]
decreasing_by exact Nat.div_lt_self (Nat.pos_of_ne_zero h) (by omega)

lemma to_hex_aux_eq_spec :
    ∀ (f n : Nat), n < f → to_hex_aux f n = hexDigitsSpec n
  | 0, n, hn => absurd hn (by omega)
  | f + 1, n, hn => by
    rw [to_hex_aux]
    by_cases hz : n = 0
    · rw [if_pos hz, hexDigitsSpec, dif_pos hz]
    · rw [if_neg hz, hexDigitsSpec, dif_neg hz]
      have hlt : n / 16 < n := Nat.div_lt_self (Nat.pos_of_ne_zero hz) (by omega)
      rw [to_hex_aux_eq_spec f (n / 16) (by omega)]

lemma to_hex_eq_spec (n : Nat) (hn : 0 < n) : to_hex n = hexDigitsSpec n := by
  rw [to_hex, if_neg (by omega)]
  exact to_hex_aux_eq_spec (n + 1) n (by omega)

lemma hexDigitsSpec_mul_add (q r : Nat) (hq : 0 < q) (hr : r < 16) :
    hexDigitsSpec (q * 16 + r) = hexDigitsSpec q ++ [hex_digit_char r] := by
  rw [hexDigitsSpec, dif_neg (by omega)]
  have h1 : (q * 16 + r) / 16 = q := by omega
  have h2 : (q * 16 + r) % 16 = r := by omega
  rw [h1, h2]

lemma hexDigitsSpec_chunk :
    ∀ (c : List Nat), (∀ b ∈ c, is_hex_digit b = true) →
      hexDigitsSpec (chunkVal c) = 49 :: c.map to_lower := by
  intro c
  induction c using List.reverseRecOn with
  | nil =>
    intro _
    rw [show chunkVal [] = 1 from by simp [chunkVal, hexValList]]
    rw [hexDigitsSpec, dif_neg (by omega)]
    rw [show (1 : Nat) / 16 = 0 from by omega, show (1 : Nat) % 16 = 1 from by omega]
    rw [hexDigitsSpec]
    simp [hex_digit_char]
  | append_singleton c b ih =>
    intro hhex
    have hchunk : chunkVal (c ++ [b]) = chunkVal c * 16 + hex_val b := by
      rw [chunkVal, chunkVal, hexValList_append]
      simp only [List.length_append, List.length_singleton, pow_succ]
      ring
    rw [hchunk, hexDigitsSpec_mul_add _ _ (chunkVal_pos c)
      (hex_val_lt b (hhex b (by simp)))]
    rw [ih (fun x hx => hhex x (List.mem_append_left _ hx))]
    rw [char_hexval_tolower b (hhex b (by simp))]
    simp

lemma to_hex_chunk_strip (c : List Nat) (hhex : ∀ b ∈ c, is_hex_digit b = true) :
    (to_hex (chunkVal c)).drop 1 = c.map to_lower := by
  rw [to_hex_eq_spec _ (chunkVal_pos c), hexDigitsSpec_chunk c hhex]
  rfl

/-! ### Chunking -/

lemma chunksAux_flatten :
    ∀ (f : Nat) (l : List Nat), l.length ≤ f → (chunksAux f l).flatten = l
  | 0, l, hl => by
    have : l = [] := List.length_eq_zero.mp (by omega)
    subst this
    rfl
  | f + 1, l, hl => by
    cases l with
    | nil => rfl
    | cons a t =>
      rw [chunksAux]
      simp only [List.flatten_cons]
      rw [chunksAux_flatten f ((a :: t).drop 12) (by
        rw [List.length_drop]
        simp only [List.length_cons] at hl ⊢
        omega)]
      exact List.take_append_drop 12 (a :: t)
      simp

lemma chunks12_flatten (l : List Nat) : (chunks12 l).flatten = l :=
  chunksAux_flatten l.length l (le_refl _)

lemma chunksAux_mem :
    ∀ (f : Nat) (l c : List Nat), c ∈ chunksAux f l → c.length ≤ 12 ∧ c ≠ []
  | 0, l, c, hc => absurd hc (by simp [chunksAux])
  | f + 1, l, c, hc => by
    cases l with
    | nil => exact absurd hc (by simp [chunksAux])
    | cons a t =>
      rw [chunksAux] at hc
      · rcases List.mem_cons.mp hc with h1 | h2
        · subst h1
          constructor
          · rw [List.length_take]
            omega
          · simp
        · exact chunksAux_mem f _ c h2
      · simp

lemma chunks12_ne_nil (l : List Nat) (hl : l ≠ []) : chunks12 l ≠ [] := by
  rw [chunks12]
  cases l with
  | nil => exact absurd rfl hl
  | cons a t =>
    simp only [List.length_cons, chunksAux]
    simp

lemma parse_hex_chunks_map (cs : List (List Nat))
    (h : ∀ c ∈ cs, (∀ b ∈ c, is_hex_digit b = true) ∧ c.length ≤ 12) :
    parse_hex_chunks cs = some (cs.map chunkVal) := by
  induction cs with
  | nil => rfl
  | cons c cs ih =>
    rw [parse_hex_chunks]
    rw [from_str_radix16_prefixed c (h c (by simp)).1 (h c (by simp)).2]
    rw [ih (fun c2 hc2 => h c2 (List.mem_cons_of_mem c hc2))]
    rfl

lemma parse_hex_chunks_none :
    ∀ (cs : List (List Nat)), (∃ c ∈ cs, from_str_radix16 (49 :: c) = none) →
      parse_hex_chunks cs = none
  | [], h => absurd h (by simp)
  | c :: cs, h => by
    rw [parse_hex_chunks]
    obtain ⟨c2, hc2, hno⟩ := h
    rcases List.mem_cons.mp hc2 with h1 | h2
    · rw [h1] at hno
      rw [hno]
    · cases hp : from_str_radix16 (49 :: c) with
      | none => rfl
      | some v =>
        rw [parse_hex_chunks_none cs ⟨c2, h2, hno⟩]

lemma decode_hex_foldl :
    ∀ (vs acc : List Nat),
      vs.foldl (fun acc n => acc ++ (to_hex n).drop 1) acc
        = acc ++ (vs.map (fun n => (to_hex n).drop 1)).flatten
  | [], acc => by simp
  | v :: vs, acc => by
    rw [List.foldl_cons, decode_hex_foldl vs (acc ++ (to_hex v).drop 1)]
    simp [List.append_assoc]

/-! ### Concrete configurations used in the claims -/

/-- Placeholder configuration used only as the `Option.getD` default. -/
def emptyHarsh : Harsh := ⟨[], [], [], 0, []⟩

/-- The fully-default configuration (`HarshBuilder::new().init()`). -/
def harshDefault : Harsh := (init none none none 0).getD emptyHarsh

/-- Salt "this is my salt", defaults otherwise (the test-suite config). -/
def harshSalted : Harsh :=
  (init (some (strBytes "this is my salt")) none none 0).getD emptyHarsh

/-- Salt "this is my salt" and minimum hash length 8. -/
def harshSalted8 : Harsh :=
  (init (some (strBytes "this is my salt")) none none 8).getD emptyHarsh

/-! ### The claims -/

/-- C1, counterexample: a resolved configuration on which `encode` returns a
string whose `decode` is `None`, refuting unconditional round-tripping.  The
user alphabet is the 17 letters a–q and the user separators are
"aabcdefghijklmnop" (the letter a twice, then b–p); resolution leaves the
working alphabet `[q]`, separators a–p, and guards `[a]` — the guard byte a
is still a separator, so the separator byte of `encode [0, 0]` (= "qqaq") is
taken for a guard by `decode`, which strips down to one byte and fails. -/
theorem c1_counterexample :
    (init none (some (strBytes "abcdefghijklmnopq")) (some (strBytes "aabcdefghijklmnop")) 0).map
      (fun h => (encode h [0, 0], decode h (strBytes "qqaq")))
      = some (some (strBytes "qqaq"), none) := by decide

/-- C1 (amended): for every configuration whose resolved alphabet is
duplicate-free and whose alphabet, separators and guards are pairwise
disjoint ASCII byte sets (as resolution produces whenever the user separator
list is duplicate-free), and every sequence of `u64` values on which
`encode` returns a string, `decode` returns `Some` of exactly the original
sequence. -/
theorem c1_round_trip (h : Harsh) (values s : List Nat)
    (hnd : h.alphabet.Nodup)
    (hA : ∀ x ∈ h.alphabet, x < 128)
    (hS : ∀ x ∈ h.separators, x < 128)
    (hG : ∀ x ∈ h.guards, x < 128)
    (has : ∀ x ∈ h.alphabet, x ∉ h.separators)
    (hag : ∀ x ∈ h.alphabet, x ∉ h.guards)
    (hsg : ∀ x ∈ h.separators, x ∉ h.guards)
    (hv : ∀ v ∈ values, v < W)
    (henc : encode h values = some s) :
    decode h s = some values :=
  round_trip_core h values s hnd has hag hsg hv henc

/-- Witness for C1 (amended) at the test-suite configuration. -/
theorem c1_round_trip_witness : decode harshSalted (strBytes "laHquq") = some [1, 2, 3] :=
  c1_round_trip harshSalted [1, 2, 3] (strBytes "laHquq")
    (by decide) (by decide) (by decide) (by decide) (by decide) (by decide) (by decide)
    (by decide) (by decide)

/-- C2, counterexample: construction succeeds with a resolved working
alphabet of fewer than 16 bytes — here zero bytes: a 16-letter user alphabet
whose letters are all claimed by the user separators leaves the working
alphabet empty, yet `init` returns `Ok`. -/
theorem c2_counterexample :
    (init none (some (strBytes "abcdefghijklmnop")) (some (strBytes "abcdefghijklmnop")) 0).map
      (fun h => h.alphabet) = some [] := by decide

/-- C2 (amended): when `init` succeeds, the *deduplicated user alphabet*
(before separator removal) has at least 16 bytes; the post-resolution
working alphabet can be smaller, even empty. -/
theorem c2_amended (salt0 alphabet0 seps0 : Option (List Nat)) (L : Nat) (h : Harsh)
    (hinit : init salt0 alphabet0 seps0 L = some h) :
    ∃ a, unique_alphabet alphabet0 = some a ∧ 16 ≤ a.length := by
  simp only [init] at hinit
  cases hu : unique_alphabet alphabet0 with
  | none => rw [hu] at hinit; exact absurd hinit (by simp)
  | some a =>
    simp only [hu] at hinit
    split at hinit
    · exact absurd hinit (by simp)
    · rename_i hlen
      exact ⟨a, rfl, by omega⟩

/-- Witness for C2 (amended) at the default configuration. -/
theorem c2_amended_witness : ∃ a, unique_alphabet none = some a ∧ 16 ≤ a.length :=
  c2_amended none none none 0 harshDefault (by decide)

/-- C3, counterexample: decoding "gc" under the default (no-salt)
configuration splits the post-lottery byte "c" into the two *empty*
segments `[[], []]`, and decode returns `Some [0, 0]` — not `None` as the
claim asserts. -/
theorem c3_counterexample :
    (init none none none 0).map (fun h => decode h (strBytes "gc")) = some (some [0, 0]) ∧
    (strBytes "c").splitOnP (fun u => harshDefault.separators.contains u) = [[], []] := by
  constructor
  · decide
  · decide

/-- C3 (amended): `from_numeral` of an empty segment does not fail: the fold
inside `unhash` over an empty byte sequence returns its initial accumulator
`Some 0`, so adjacent separators decode to the value 0 rather than making
the whole decode return `None`. -/
theorem c3_amended (alphabet : List Nat) : unhash [] alphabet = some 0 := rfl

/-- C4, counterexample: a resolved configuration (16-letter alphabet fully
claimed by separators, leaving the working alphabet empty) on which `encode`
of the non-empty input `[1]` does not return a string: the Rust code panics
at `nhash % alphabet.len()` (division by zero), modelled as `none`. -/
theorem c4_counterexample :
    (init none (some (strBytes "abcdefghijklmnop")) (some (strBytes "abcdefghijklmnop")) 0).map
      (fun h => encode h [1]) = some none := by decide

/-- C4 (amended): on a configuration whose working alphabet has at least
two symbols, all of them positive ASCII bytes, whose separators are
non-empty ASCII, and whose guards are non-empty (or the minimum length is
zero), `encode` returns `None` exactly on the empty input. -/
theorem c4_encode_none_iff (h : Harsh) (values : List Nat)
    (h2 : 2 ≤ h.alphabet.length)
    (hpos : ∀ x ∈ h.alphabet, 0 < x ∧ x < 128)
    (hsepa : ∀ x ∈ h.separators, x < 128)
    (hga : ∀ x ∈ h.guards, x < 128)
    (hsep : h.separators ≠ [])
    (hg : h.guards ≠ [] ∨ h.hash_length = 0) :
    encode h values = none ↔ values = [] := by
  constructor
  · intro hn
    by_contra hne
    obtain ⟨s, hs⟩ := encode_total h values h2 (fun x hx => (hpos x hx).1) hsep hg hne
    rw [hs] at hn
    exact absurd hn (by simp)
  · intro hv
    subst hv
    rfl

/-- Witness for C4 (amended) at the test-suite configuration. -/
theorem c4_encode_none_iff_witness :
    (encode harshSalted [5] = none ↔ ([5] : List Nat) = []) :=
  c4_encode_none_iff harshSalted [5] (by decide) (by decide) (by decide) (by decide)
    (by decide) (by decide)

/-- C5, counterexample: with user separators "cc" (and the default
alphabet), the resolved separator list keeps the duplicated byte c, so it
is not duplicate-free. -/
theorem c5_counterexample :
    (init none none (some (strBytes "cc")) 0).map (fun h => decide h.separators.Nodup)
      = some false := by decide

/-- C5 (amended): whenever the user-supplied separator list is
duplicate-free (the default is), the resolved alphabet, separators and
guards are individually duplicate-free and pairwise disjoint. -/
theorem c5_disjoint_nodup (salt0 alphabet0 seps0 : Option (List Nat)) (L : Nat) (h : Harsh)
    (hs : ∀ l, seps0 = some l → l.Nodup)
    (hinit : init salt0 alphabet0 seps0 L = some h) :
    h.alphabet.Nodup ∧ h.separators.Nodup ∧ h.guards.Nodup ∧
      (∀ x ∈ h.alphabet, x ∉ h.separators) ∧
      (∀ x ∈ h.alphabet, x ∉ h.guards) ∧
      (∀ x ∈ h.separators, x ∉ h.guards) :=
  init_invariants salt0 alphabet0 seps0 L h hs hinit

/-- Witness for C5 (amended) at the test-suite configuration. -/
theorem c5_disjoint_nodup_witness :
    harshSalted.alphabet.Nodup ∧ harshSalted.separators.Nodup ∧ harshSalted.guards.Nodup ∧
      (∀ x ∈ harshSalted.alphabet, x ∉ harshSalted.separators) ∧
      (∀ x ∈ harshSalted.alphabet, x ∉ harshSalted.guards) ∧
      (∀ x ∈ harshSalted.separators, x ∉ harshSalted.guards) :=
  c5_disjoint_nodup (some (strBytes "this is my salt")) none none 0 harshSalted
    (fun l hl => Option.noConfusion hl) (by decide)

/-- C6: whenever `encode` returns a string, its length is at least the
configured minimum hash length (the model counts one unit per symbol, a
lower bound on the UTF-8 byte length of the Rust `String`). -/
theorem c6_min_length (h : Harsh) (values s : List Nat)
    (henc : encode h values = some s) : h.hash_length ≤ s.length := by
  simp only [encode] at henc
  by_cases h1 : values.isEmpty
  · rw [if_pos h1] at henc; exact absurd henc (by simp)
  rw [if_neg h1] at henc
  by_cases h2 : h.alphabet.isEmpty
  · rw [if_pos h2] at henc; exact absurd henc (by simp)
  rw [if_neg h2] at henc
  cases hev : encode_values (h.alphabet.getD (create_nhash values % h.alphabet.length) 0)
      h.salt h.separators 0 h.alphabet values with
  | none => rw [hev] at henc; exact absurd henc (by simp)
  | some p =>
    obtain ⟨body, af⟩ := p
    simp only [hev] at henc
    cases hgs : guard_step h (create_nhash values)
        (h.alphabet.getD (create_nhash values % h.alphabet.length) 0 :: body) with
    | none => rw [hgs] at henc; exact absurd henc (by simp)
    | some b4 =>
      simp only [hgs] at henc
      exact pad_loop_length h.hash_length (af.length / 2) (h.hash_length + 1) af b4 s henc

/-- Witness for C6 at minimum length 8: the encoded string has length 8. -/
theorem c6_min_length_witness : harshSalted8.hash_length ≤ (strBytes "GlaHquq0").length :=
  c6_min_length harshSalted8 [1, 2, 3] (strBytes "GlaHquq0") (by decide)

/-- C7: the padding loop of `encode` terminates after finitely many rounds
on every non-empty scratch alphabet (as holds whenever the loop is reached):
fuel `hash_length + 1` always suffices, because each round either grows the
buffer by the alphabet length or trims it to exactly the target length. -/
theorem c7_pad_loop_terminates (L half : Nat) (alphabet buffer : List Nat)
    (hane : alphabet ≠ []) :
    ∃ r, pad_loop L half (L + 1) alphabet buffer = some r :=
  pad_loop_total L half (L + 1) alphabet buffer hane (by omega)

/-- Witness for C7 at a concrete alphabet and target length. -/
theorem c7_pad_loop_terminates_witness : ∃ r, pad_loop 5 1 6 [1, 2] [] = some r :=
  c7_pad_loop_terminates 5 1 [1, 2] [] (by decide)

/-- C8, counterexample: in the configuration of `c1_counterexample` extended
with one more alphabet letter (user alphabet a–r, user separators
"aabcdefghijklmnop"), the even-length all-hex string "00000000000f00"
encodes successfully, but `decode_hex` of the result returns `Some "f"`,
not the lowercased input: the guard byte a doubles as a separator and the
guard strip cuts the payload. -/
theorem c8_counterexample :
    (init none (some (strBytes "abcdefghijklmnopqr")) (some (strBytes "aabcdefghijklmnop")) 0).map
      (fun h => ((encode_hex h (strBytes "00000000000f00")).map
        (fun t => (t, decode_hex h t))))
      = some (some (strBytes "rqrrrrrrrrrrrrrrrrrrrrrrrrrrrrrrrrrrrrrrrrrrrrqqqqarqqqqqqqq",
          some (strBytes "f"))) := by decide

/-- C8 (amended): under the same well-formedness provisos as the amended C1
(duplicate-free alphabet, pairwise-disjoint ASCII alphabet/separators/
guards), for every even-length hex string on which `encode_hex` returns a
string, `decode_hex` returns the lowercase form of the input. -/
theorem c8_hex_round_trip (h : Harsh) (s t : List Nat)
    (hnd : h.alphabet.Nodup)
    (hA : ∀ x ∈ h.alphabet, x < 128)
    (hS : ∀ x ∈ h.separators, x < 128)
    (hG : ∀ x ∈ h.guards, x < 128)
    (has : ∀ x ∈ h.alphabet, x ∉ h.separators)
    (hag : ∀ x ∈ h.alphabet, x ∉ h.guards)
    (hsg : ∀ x ∈ h.separators, x ∉ h.guards)
    (hhex : ∀ b ∈ s, is_hex_digit b = true)
    (heven : s.length % 2 = 0)
    (henc : encode_hex h s = some t) :
    decode_hex h t = some (s.map to_lower) := by
  rw [encode_hex] at henc
  have hch : ∀ c ∈ chunks12 s, (∀ b ∈ c, is_hex_digit b = true) ∧ c.length ≤ 12 := by
    intro c hc
    refine ⟨fun b hb => hhex b ?_, (chunksAux_mem _ _ c hc).1⟩
    rw [← chunks12_flatten s]
    exact List.mem_flatten.mpr ⟨c, hc, hb⟩
  rw [parse_hex_chunks_map _ hch] at henc
  simp only [] at henc
  have hv : ∀ v ∈ (chunks12 s).map chunkVal, v < W := by
    intro v hvv
    obtain ⟨c, hc, hcv⟩ := List.mem_map.mp hvv
    exact hcv ▸ chunkVal_lt_W c (hch c hc).1 (hch c hc).2
  have hdec := round_trip_core h ((chunks12 s).map chunkVal) t hnd has hag hsg hv henc
  rw [decode_hex]
  simp only [hdec]
  rw [decode_hex_foldl]
  rw [List.nil_append, List.map_map]
  have hmap : ((chunks12 s).map ((fun n => (to_hex n).drop 1) ∘ chunkVal))
      = (chunks12 s).map (List.map to_lower) := by
    apply List.map_congr_left
    intro c hc
    exact to_hex_chunk_strip c (hch c hc).1
  rw [hmap, ← List.map_flatten, chunks12_flatten]

/-- Witness for C8 (amended) at the test-suite configuration. -/
theorem c8_hex_round_trip_witness :
    decode_hex harshSalted (strBytes "kRNrpKlJ") = some ((strBytes "deadbeef").map to_lower) :=
  c8_hex_round_trip harshSalted (strBytes "deadbeef") (strBytes "kRNrpKlJ")
    (by decide) (by decide) (by decide) (by decide) (by decide) (by decide) (by decide)
    (by decide) (by decide) (by decide)

/-- C9: with salt "this is my salt", default alphabet and separators and
minimum length 0, `encode [1, 2, 3]` is exactly "laHquq" and
`decode "laHquq"` is `[1, 2, 3]`. -/
theorem c9_concrete_vectors :
    init (some (strBytes "this is my salt")) none none 0 = some harshSalted ∧
    encode harshSalted [1, 2, 3] = some (strBytes "laHquq") ∧
    decode harshSalted (strBytes "laHquq") = some [1, 2, 3] := by
  refine ⟨by decide, by decide, by decide⟩

/-- C10: the `'1'`-prefixed chunks of at most 12 hex digits parsed by
`encode_hex` never overflow `u64` (they are below `16^13 = 2^52`), so for
any configuration on which `encode` succeeds on all non-empty inputs,
`encode_hex` returns `None` exactly when the input is empty or contains a
byte that is not an ASCII hex digit. -/
theorem c10_encode_hex_none_iff (h : Harsh)
    (htotal : ∀ vs : List Nat, vs ≠ [] → ∃ t, encode h vs = some t) (s : List Nat) :
    encode_hex h s = none ↔ s = [] ∨ ∃ b ∈ s, is_hex_digit b = false := by
  constructor
  · intro hn
    by_contra hcon
    push_neg at hcon
    obtain ⟨hs1, hs2⟩ := hcon
    have hhex : ∀ b ∈ s, is_hex_digit b = true := by
      intro b hb
      have := hs2 b hb
      cases hbv : is_hex_digit b
      · exact absurd hbv this
      · rfl
    have hch : ∀ c ∈ chunks12 s, (∀ b ∈ c, is_hex_digit b = true) ∧ c.length ≤ 12 := by
      intro c hc
      refine ⟨fun b hb => hhex b ?_, (chunksAux_mem _ _ c hc).1⟩
      rw [← chunks12_flatten s]
      exact List.mem_flatten.mpr ⟨c, hc, hb⟩
    rw [encode_hex, parse_hex_chunks_map _ hch] at hn
    simp only [] at hn
    have hne : (chunks12 s).map chunkVal ≠ [] := by
      intro hcon2
      exact chunks12_ne_nil s hs1 (List.map_eq_nil_iff.mp hcon2)
    obtain ⟨t, ht⟩ := htotal _ hne
    rw [ht] at hn
    exact absurd hn (by simp)
  · intro hcase
    rcases hcase with h1 | ⟨b, hb, hbad⟩
    · subst h1
      rfl
    · have hmem : ∃ c ∈ chunks12 s, b ∈ c := by
        have : b ∈ (chunks12 s).flatten := by rw [chunks12_flatten]; exact hb
        exact List.mem_flatten.mp this
      obtain ⟨c, hc, hbc⟩ := hmem
      have hfail : from_str_radix16 (49 :: c) = none := by
        rw [from_str_radix16, if_neg (by simp)]
        rw [if_neg (by
          intro hall
          rw [List.all_eq_true] at hall
          have := hall b (List.mem_cons_of_mem 49 hbc)
          rw [hbad] at this
          exact absurd this (by simp))]
      rw [encode_hex, parse_hex_chunks_none (chunks12 s) ⟨c, hc, hfail⟩]

/-- Witness for C10 at the default configuration and the non-hex input
"xz". -/
theorem c10_encode_hex_none_iff_witness :
    (encode_hex harshDefault (strBytes "xz") = none ↔
      strBytes "xz" = [] ∨ ∃ b ∈ strBytes "xz", is_hex_digit b = false) :=
  c10_encode_hex_none_iff harshDefault
    (fun vs hvs => encode_total harshDefault vs (by decide) (by decide) (by decide)
      (by decide) hvs)
    (strBytes "xz")

end Hashids
